import Mathlib

/-!
Shallow embedding of the Graph-Link-Types plugin core
(src/linkManager.ts and the update loop of src/main.ts).

The embedding models the `LinkManager` class as a pure state
(`LinkManagerState`) and its methods as state-passing functions.  JavaScript
`Map` objects (insertion ordered, keys unique) are modelled as association
lists with JS `Map` semantics (`mapGet`, `mapSet`, `mapDelete`); the pixi
stage's display list (`renderer.px.stage.children`) is modelled as the list of
element ids currently attached, and each created pixi object (Text, Graphics)
receives a fresh id from a counter.  Numbers are modelled as `ℚ` (the modelled
code paths use only +, -, *, / and comparisons; the square-root based line
geometry of `updateLinkGraphics`/`initializeLinkGraphics` is write-only
rendering data that no claim mentions, so the width/endpoint fields of a
Graphics object are not carried).  The external Dataview lookup
(`getMetadataKeyForLink`, the Classification Resolver boundary) is an oracle
parameter of type `Resolver`.
-/

/-- The Classification Resolver boundary: `getMetadataKeyForLink(sourceId,
targetId)` returns the metadata key for the directed edge, or `none`
(JS `null`) when there is none.  It is an external, pure lookup. -/
def Resolver := String → String → Option String

/-- One endpoint of an `ObsidianLink` (`source` or `target` in src/types.ts):
id, graph-space position, weight, and the endpoint's own label opacity.
`textAlpha = none` models a missing `text` object or a missing/undefined
`text.alpha` (both are falsy in the source's checks). -/
structure NodeEnd where
  id : String
  x : ℚ
  y : ℚ
  weight : ℚ
  textAlpha : Option ℚ
deriving DecidableEq

/-- An `ObsidianLink`: a directed edge between two endpoints. -/
structure ObsLink where
  source : NodeEnd
  target : NodeEnd
deriving DecidableEq

/-- The `LinkPair` enum of src/types.ts. -/
inductive LinkPair where
  | None
  | First
  | Second
deriving DecidableEq

/-- A pixi `Text` object as far as the core mutates it: its display-list
identity, its string content, position, scale, fill color and opacity. -/
structure PixiText where
  elemId : ℕ
  text : String
  x : ℚ
  y : ℚ
  scaleFactor : ℚ
  fill : String
  alpha : ℚ
  zIndex : ℕ
deriving DecidableEq

/-- A pixi `Graphics` object as far as the core mutates it.  `strokeColor` is
the color argument passed to `lineStyle`: `none` models the JS `undefined`
that is passed for a self-loop edge (no stroke color metadata was ever
assigned). -/
structure PixiGraphics where
  elemId : ℕ
  strokeColor : Option ℕ
  alpha : ℚ
  zIndex : ℕ
deriving DecidableEq

/-- The `GltLink` record of src/types.ts: one tracked Overlay Entry. -/
structure GltLink where
  obsidianLink : ObsLink
  pairStatus : LinkPair
  pixiText : Option PixiText
  pixiGraphics : Option PixiGraphics
deriving DecidableEq

/-- The `GltLegendGraphic` record of src/types.ts: one legend row (color,
the two pixi elements of the row, and the use counter `nUsing`). -/
structure GltLegendGraphic where
  color : ℕ
  legendTextId : ℕ
  legendTextAlpha : ℚ
  legendGraphicsId : ℕ
  legendGraphicsAlpha : ℚ
  nUsing : ℤ
deriving DecidableEq

/-- The read-only renderer data the core consumes each call
(`renderer.panX/panY/scale/nodeScale`). -/
structure Renderer where
  panX : ℚ
  panY : ℚ
  scale : ℚ
  nodeScale : ℚ
deriving DecidableEq

/-- The mutable state of a `LinkManager` instance, together with the pixi
stage display list it mutates.  `stage` lists the element ids currently
attached to `renderer.px.stage.children`; `nextElemId` provides a fresh id
for every created pixi object.  `textColor` is the theme-derived text color
(set by the external theme observer; no modelled code path depends on its
value). -/
structure LinkManagerState where
  linksMap : List (String × GltLink)
  tagColors : List (String × GltLegendGraphic)
  currentTagColorIndex : ℕ
  yOffset : ℚ
  stage : List ℕ
  nextElemId : ℕ
  textColor : String
deriving DecidableEq

/-- JS `Map.get`: the value stored at `k`, if any. -/
def mapGet (m : List (String × α)) (k : String) : Option α :=
  (m.find? (fun p => p.1 == k)).map Prod.snd

/-- JS `Map.has`. -/
def mapHas (m : List (String × α)) (k : String) : Bool :=
  (mapGet m k).isSome

/-- JS `Map.set`: update in place (keeping insertion order) when the key is
present, append otherwise. -/
def mapSet (m : List (String × α)) (k : String) (v : α) : List (String × α) :=
  if mapHas m k then m.map (fun p => if p.1 == k then (k, v) else p)
  else m ++ [(k, v)]

/-- JS `Map.delete`. -/
def mapDelete (m : List (String × α)) (k : String) : List (String × α) :=
  m.filter (fun p => p.1 != k)

/-- The fixed categorical palette `categoricalColors` of linkManager.ts. -/
def categoricalColors : List ℕ :=
  [0xF44336, 0x03A9F4, 0xFF9800, 0x9C27B0, 0xCDDC39,
   0x3F51B5, 0xFFC107, 0x00BCD4, 0xE91E63, 0x4CAF50,
   0xFF5722, 0x673AB7, 0x9E9E9E, 0x2196F3, 0x8BC34A,
   0x795548, 0x009688, 0x607D8B, 0xFFEB3B, 0x000000]

/-- `lineHeight = 17`, the legend row height. -/
def lineHeight : ℚ := 17

/-- The fresh `LinkManager` state built by the constructor: empty maps,
`currentTagColorIndex = 0`, `yOffset = 5`, empty stage. -/
def initialState : LinkManagerState :=
  { linksMap := []
    tagColors := []
    currentTagColorIndex := 0
    yOffset := 5
    stage := []
    nextElemId := 0
    textColor := "" }

/-- `generateKey(sourceId, targetId)`: the template string
`sourceId + "-" + targetId`. -/
def generateKey (sourceId targetId : String) : String :=
  sourceId ++ "-" ++ targetId

/-- The identity key of a link's endpoints. -/
def linkKey (l : ObsLink) : String :=
  generateKey l.source.id l.target.id

/-- The mirror (reverse) identity key of a link's endpoints. -/
def reverseLinkKey (l : ObsLink) : String :=
  generateKey l.target.id l.source.id

/-- `getLinkToTextCoordinates`: pan/zoom projection of a graph-space point. -/
def getLinkToTextCoordinates (linkX linkY panX panY scale : ℚ) : ℚ × ℚ :=
  (linkX * scale + panX, linkY * scale + panY)

/-- The global-regex replacement `text.replace(/\r?\n/g, "")` on the
character list: each `'\r'` immediately followed by `'\n'` is dropped with
it, every other `'\n'` is dropped, all else is kept. -/
def stripNewlinesAux : List Char → List Char
  | [] => []
  | '\r' :: '\n' :: rest => stripNewlinesAux rest
  | '\n' :: rest => stripNewlinesAux rest
  | c :: rest => c :: stripNewlinesAux rest

/-- `text.replace(/\r?\n/g, "")` on strings. -/
def stripNewlines (s : String) : String :=
  ⟨stripNewlinesAux s.data⟩

/-- `updateLinkText(renderer, link, tagNames)`: looks up the tracked entry,
projects the edge midpoint, and — when the entry's `pixiText` is attached to
the stage — moves the text there, rescales it by `1 / (3 * nodeScale)`,
refreshes its fill color, and applies the visibility policy: `tagNames =
false` forces `alpha = 0`; otherwise `alpha = 0.9` when either endpoint's
`text.alpha` is falsy (missing or 0), and `max` of the two alphas otherwise. -/
def updateLinkText (r : Renderer) (st : LinkManagerState) (link : ObsLink)
    (tagNames : Bool) : LinkManagerState :=
  let key := generateKey link.source.id link.target.id
  match mapGet st.linksMap key with
  | none => st
  | some gltLink =>
    match gltLink.pixiText with
    | none => st
    | some text =>
      let midX := (link.source.x + link.target.x) / 2
      let midY := (link.source.y + link.target.y) / 2
      let c := getLinkToTextCoordinates midX midY r.panX r.panY r.scale
      if st.stage.contains text.elemId then
        let alpha : ℚ :=
          if tagNames then
            match link.source.textAlpha, link.target.textAlpha with
            | some sa, some ta => if ta = 0 ∨ sa = 0 then 9/10 else max sa ta
            | _, _ => 9/10
          else 0
        let text := { text with
          x := c.1
          y := c.2
          scaleFactor := 1 / (3 * r.nodeScale)
          fill := st.textColor
          alpha := alpha }
        { st with linksMap := mapSet st.linksMap key ({ gltLink with pixiText := some text }) }
      else st

/-- `updateLinkGraphics(renderer, link)`: when the tracked entry's
`pixiGraphics` is attached, the source clears it and redraws the offset line
with its previously assigned color at `alpha = 0.6`.  The redrawn geometry
(which uses `Math.sqrt`) is write-only data not carried by the model; the
observable state effect kept here is the preserved stroke color and the new
opacity. -/
def updateLinkGraphics (r : Renderer) (st : LinkManagerState) (link : ObsLink) :
    LinkManagerState :=
  let key := generateKey link.source.id link.target.id
  match mapGet st.linksMap key with
  | none => st
  | some gltLink =>
    match gltLink.pixiGraphics with
    | none => st
    | some graphics =>
      if st.stage.contains graphics.elemId then
        let graphics := { graphics with alpha := (3 : ℚ)/5 }
        let gltLink := { gltLink with pixiGraphics := some graphics }
        { st with linksMap := mapSet st.linksMap key gltLink }
      else st

/-- The legend/color acquisition inlined in `initializeLinkGraphics`
(the non-self-loop branch, linkManager.ts lines 589-647).  When `linkString`
has no legend row yet: pick the palette color at `currentTagColorIndex`,
advance the cursor cyclically, create the legend text and legend line
(transparent when `tagLegend` is false), attach both to the stage, advance
`yOffset` by one row height, and store the row with `nUsing = 0`.  When a
row exists: bump `nUsing` and reuse its color (with the source's `0xFFFFFF`
fallback for the unreachable missing-value case).  Returns the chosen color
and the new state. -/
def acquireTagColor (st : LinkManagerState) (linkString : String)
    (tagLegend : Bool) : ℕ × LinkManagerState :=
  if !(mapHas st.tagColors linkString) then
    let color := categoricalColors.getD st.currentTagColorIndex 0
    let st := { st with
      currentTagColorIndex := (st.currentTagColorIndex + 1) % categoricalColors.length }
    let textLId := st.nextElemId
    let graphicsLId := st.nextElemId + 1
    let rowAlpha : ℚ := if tagLegend then 1 else 0
    let legendRow : GltLegendGraphic :=
      { color := color
        legendTextId := textLId
        legendTextAlpha := rowAlpha
        legendGraphicsId := graphicsLId
        legendGraphicsAlpha := rowAlpha
        nUsing := 0 }
    let st := { st with
      nextElemId := st.nextElemId + 2
      stage := st.stage ++ [textLId, graphicsLId]
      yOffset := st.yOffset + lineHeight
      tagColors := mapSet st.tagColors linkString legendRow }
    (color, st)
  else
    match mapGet st.tagColors linkString with
    | some legendGraphic =>
      let bumped := { legendGraphic with nUsing := legendGraphic.nUsing + 1 }
      (legendGraphic.color, { st with tagColors := mapSet st.tagColors linkString bumped })
    | none => (0xFFFFFF, st)

/-- The legend release fragment of `removeLink` (linkManager.ts lines
269-308), applied to a (truthy) `colorKey`: when a legend row exists for the
key, decrement `nUsing`; when it drops below 1, roll `yOffset` back by one
row height, roll the palette cursor back by one (wrapping below 0 to the end
of the palette), detach the row's two elements from the stage, and delete
the row. -/
def releaseTagColor (st : LinkManagerState) (colorKey : String) :
    LinkManagerState :=
  if !(mapHas st.tagColors colorKey) then st
  else
    match mapGet st.tagColors colorKey with
    | none => st
    | some legendGraphic =>
      let legendGraphic := { legendGraphic with nUsing := legendGraphic.nUsing - 1 }
      let st := { st with tagColors := mapSet st.tagColors colorKey legendGraphic }
      if legendGraphic.nUsing < 1 then
        let st := { st with yOffset := st.yOffset - lineHeight }
        let newIndex :=
          if st.currentTagColorIndex = 0 then categoricalColors.length - 1
          else st.currentTagColorIndex - 1
        let st := { st with currentTagColorIndex := newIndex }
        let stage1 :=
          if st.stage.contains legendGraphic.legendTextId then
            st.stage.erase legendGraphic.legendTextId
          else st.stage
        let st := { st with stage := stage1 }
        let stage2 :=
          if st.stage.contains legendGraphic.legendGraphicsId then
            st.stage.erase legendGraphic.legendGraphicsId
          else st.stage
        let st := { st with stage := stage2 }
        { st with tagColors := mapDelete st.tagColors colorKey }
      else st

/-- `initializeLinkText(renderer, link, pairStatus)`: resolve the metadata
key; `none` yields no text.  A self-loop (`source.id === target.id`) clears
the string; a `First`/`Second` pair status appends/prepends `"\n\n"`.  The
source then creates the `Text` (fill from the current theme color), calls
`updateLinkText(renderer, link, false)` — note: before the text is attached
and before the entry is in `linksMap`, so this touches a previous entry at
the same key if one exists — and attaches the text to the stage. -/
def initializeLinkText (resolve : Resolver) (r : Renderer)
    (st : LinkManagerState) (link : ObsLink) (pairStatus : LinkPair) :
    Option PixiText × LinkManagerState :=
  match resolve link.source.id link.target.id with
  | none => (none, st)
  | some s =>
    let s := if link.source.id = link.target.id then "" else s
    let s :=
      match pairStatus with
      | .First => s ++ "\n\n"
      | .Second => "\n\n" ++ s
      | .None => s
    let text : PixiText :=
      { elemId := st.nextElemId
        text := s
        x := 0
        y := 0
        scaleFactor := 1
        fill := st.textColor
        alpha := 1
        zIndex := 1 }
    let st := { st with nextElemId := st.nextElemId + 1 }
    let st := updateLinkText r st link false
    let st := { st with stage := st.stage ++ [text.elemId] }
    (some text, st)

/-- `initializeLinkGraphics(renderer, link, tagLegend)`: resolve the metadata
key; `none` yields no graphics.  For a self-loop the color variable is never
assigned (the stroke color stays `undefined`, modelled as `none`) and no
legend/color allocation happens; otherwise the color is acquired through the
legend allocator.  The `Graphics` is created, attached to the stage, and
`updateLinkGraphics(renderer, link)` is called (again before the entry is in
`linksMap`). -/
def initializeLinkGraphics (resolve : Resolver) (r : Renderer)
    (st : LinkManagerState) (link : ObsLink) (tagLegend : Bool) :
    Option PixiGraphics × LinkManagerState :=
  match resolve link.source.id link.target.id with
  | none => (none, st)
  | some linkString =>
    let p : Option ℕ × LinkManagerState :=
      if link.source.id = link.target.id then (none, st)
      else
        let q := acquireTagColor st linkString tagLegend
        (some q.1, q.2)
    let st := p.2
    let graphics : PixiGraphics :=
      { elemId := st.nextElemId
        strokeColor := p.1
        alpha := 1
        zIndex := 0 }
    let st := { st with
      nextElemId := st.nextElemId + 1
      stage := st.stage ++ [graphics.elemId] }
    let st := updateLinkGraphics r st link
    (some graphics, st)

/-- `addLink(renderer, obLink, tagColors, tagLegend)`: compute the key and
mirror key; the new entry is `Second` when the edge is not a self-loop and
the mirror key is already tracked, else `None`; build the text (and, when
color mode is on, the graphics); store the entry at its key; then — on the
map that now holds the new entry — if the edge is not a self-loop and the
mirror key is tracked, flip the entry at the mirror key to `First`. -/
def addLink (resolve : Resolver) (r : Renderer) (st : LinkManagerState)
    (obLink : ObsLink) (tagColors tagLegend : Bool) : LinkManagerState :=
  let key := generateKey obLink.source.id obLink.target.id
  let reverseKey := generateKey obLink.target.id obLink.source.id
  let pairStatus :=
    if (obLink.source.id != obLink.target.id) && mapHas st.linksMap reverseKey then
      LinkPair.Second
    else LinkPair.None
  let t := initializeLinkText resolve r st obLink pairStatus
  let st := t.2
  let g : Option PixiGraphics × LinkManagerState :=
    if tagColors then initializeLinkGraphics resolve r st obLink tagLegend
    else (none, st)
  let st := g.2
  let newLink : GltLink :=
    { obsidianLink := obLink
      pairStatus := pairStatus
      pixiText := t.1
      pixiGraphics := g.1 }
  let st := { st with linksMap := mapSet st.linksMap key newLink }
  if !((obLink.source.id != obLink.target.id) && mapHas st.linksMap reverseKey) then st
  else
    match mapGet st.linksMap reverseKey with
    | some reverseLink =>
      let flipped := { reverseLink with pairStatus := LinkPair.First }
      { st with linksMap := mapSet st.linksMap reverseKey flipped }
    | none => st

/-- The display-list detach phase of `removeLink` (linkManager.ts lines
240-264): when the looked-up entry's `pixiText` is attached, remove (and
destroy) it; then the same for its `pixiGraphics`. -/
def removeLinkDetach (st : LinkManagerState) (gltLink : Option GltLink) :
    LinkManagerState :=
  let st :=
    match gltLink with
    | some gl =>
      match gl.pixiText with
      | some t =>
        if st.stage.contains t.elemId then { st with stage := st.stage.erase t.elemId }
        else st
      | none => st
    | none => st
  match gltLink with
  | some gl =>
    match gl.pixiGraphics with
    | some gr =>
      if st.stage.contains gr.elemId then { st with stage := st.stage.erase gr.elemId }
      else st
    | none => st
  | none => st

/-- The legend-release phase of `removeLink` (linkManager.ts lines 266-309):
`colorKey` is the entry's text content with newlines stripped; when it is
truthy, release the legend slot. -/
def removeLinkRelease (st : LinkManagerState) (gltLink : Option GltLink) :
    LinkManagerState :=
  let colorKey : Option String :=
    gltLink.bind (fun gl => gl.pixiText.map (fun t => stripNewlines t.text))
  match colorKey with
  | some ck => if ck ≠ "" then releaseTagColor st ck else st
  | none => st

/-- `removeLink(renderer, link)`: detach and destroy the entry's text and
graphics when attached; release the legend slot for the entry's truthy
`colorKey`; delete the entry; finally, if the mirror key is tracked with a
non-`None` pair status, reset it to `None`. -/
def removeLink (r : Renderer) (st : LinkManagerState) (link : ObsLink) :
    LinkManagerState :=
  let key := generateKey link.source.id link.target.id
  let reverseKey := generateKey link.target.id link.source.id
  let gltLink := mapGet st.linksMap key
  let st := removeLinkDetach st gltLink
  let st := removeLinkRelease st gltLink
  let st := { st with linksMap := mapDelete st.linksMap key }
  match mapGet st.linksMap reverseKey with
  | some reverseLink =>
    if reverseLink.pairStatus ≠ LinkPair.None then
      let reset := { reverseLink with pairStatus := LinkPair.None }
      { st with linksMap := mapSet st.linksMap reverseKey reset }
    else st
  | none => st

/-- `removeLinks(renderer, currentLinks)`: collect the identity keys of the
live links, then iterate over the tracked keys (a JS `Map.forEach`: insertion
order, entries deleted before their visit are skipped — modelled by a fresh
`mapGet` at each visit) and `removeLink` every entry whose key is not live. -/
def removeLinks (r : Renderer) (st : LinkManagerState)
    (currentLinks : List ObsLink) : LinkManagerState :=
  let currentKeys := currentLinks.map (fun l => generateKey l.source.id l.target.id)
  (st.linksMap.map Prod.fst).foldl
    (fun s key =>
      if !(currentKeys.contains key) then
        match mapGet s.linksMap key with
        | some link => removeLink r s link.obsidianLink
        | none => s
      else s)
    st

/-- `destroyMap(renderer)`: `removeLink` every tracked entry (same
`Map.forEach` iteration model as `removeLinks`; the `size > 0` guard of the
source is redundant). -/
def destroyMap (r : Renderer) (st : LinkManagerState) : LinkManagerState :=
  (st.linksMap.map Prod.fst).foldl
    (fun s key =>
      match mapGet s.linksMap key with
      | some link => removeLink r s link.obsidianLink
      | none => s)
    st

/-- One structural-sync tick of `updatePositions` (main.ts lines 269-293 with
`updateMap = true`): first `removeLinks` with the live edge list, then a
single pass over the live edges that — per edge, in order — adds the edge if
its key is untracked, refreshes its text, and (when color mode is on)
refreshes its graphics. -/
def updateTick (resolve : Resolver) (r : Renderer)
    (tagColors tagLegend tagNames : Bool) (st : LinkManagerState)
    (live : List ObsLink) : LinkManagerState :=
  let st := removeLinks r st live
  live.foldl
    (fun s link =>
      let key := generateKey link.source.id link.target.id
      let s :=
        if !(mapHas s.linksMap key) then addLink resolve r s link tagColors tagLegend
        else s
      let s := updateLinkText r s link tagNames
      if tagColors then updateLinkGraphics r s link else s)
    st

/-- The per-tick event alphabet of the update loop: the `removeLinks`
reconciliation pass, an `addLink` call, an `updateLinkText` (label refresh)
call, an `updateLinkGraphics` (indicator refresh) call, each tagged with the
edge identity key it concerns. -/
inductive SyncEv where
  | reconcile
  | add (key : String)
  | refreshText (key : String)
  | refreshGraphics (key : String)
deriving DecidableEq

/-- Whether an event is an `addLink` call. -/
def SyncEv.isAdd : SyncEv → Bool
  | .add _ => true
  | _ => false

/-- Whether an event is a refresh (`updateLinkText` or `updateLinkGraphics`)
call. -/
def SyncEv.isRefresh : SyncEv → Bool
  | .refreshText _ => true
  | .refreshGraphics _ => true
  | _ => false

/-- The event trace of the per-edge loop of a structural-sync tick
(main.ts lines 279-293): for each live edge in order, an `add` event when its
key is untracked, then its `refreshText` event, then (when color mode is on)
its `refreshGraphics` event, threading the state exactly as `updateTick`
does. -/
def tickTraceAux (resolve : Resolver) (r : Renderer)
    (tagColors tagLegend tagNames : Bool) :
    LinkManagerState → List ObsLink → List SyncEv
  | _, [] => []
  | st, link :: rest =>
    let key := generateKey link.source.id link.target.id
    let addNow := !(mapHas st.linksMap key)
    let st1 := if addNow then addLink resolve r st link tagColors tagLegend else st
    let st2 := updateLinkText r st1 link tagNames
    let st3 := if tagColors then updateLinkGraphics r st2 link else st2
    ((if addNow then [SyncEv.add key] else []) ++ [SyncEv.refreshText key] ++
        (if tagColors then [SyncEv.refreshGraphics key] else [])) ++
      tickTraceAux resolve r tagColors tagLegend tagNames st3 rest

/-- The full event trace of one structural-sync tick of `updatePositions`:
the `removeLinks` reconciliation first, then the per-edge loop run on the
reconciled state. -/
def tickEvents (resolve : Resolver) (r : Renderer)
    (tagColors tagLegend tagNames : Bool) (st : LinkManagerState)
    (live : List ObsLink) : List SyncEv :=
  SyncEv.reconcile ::
    tickTraceAux resolve r tagColors tagLegend tagNames (removeLinks r st live) live

/-- `noAddAfterRefresh evs` says no `add` event occurs after any refresh
event: the reading of "the entire structural sync completes before any
refresh call of that tick". -/
def noAddAfterRefresh : List SyncEv → Bool
  | [] => true
  | e :: rest =>
    (if e.isRefresh then rest.all (fun x => !x.isAdd) else true) && noAddAfterRefresh rest

/-- The state after folding a sequence of structural-sync ticks (one live
edge-set snapshot each) from the fresh `LinkManager` state. -/
def runTicks (resolve : Resolver) (r : Renderer)
    (tagColors tagLegend tagNames : Bool) (snaps : List (List ObsLink)) :
    LinkManagerState :=
  snaps.foldl (updateTick resolve r tagColors tagLegend tagNames) initialState

/-- A string free of the key separator character `'-'`. -/
def dashFree (s : String) : Bool :=
  !(s.data.contains '-')

/-- The states reachable from the fresh `LinkManager` state by the public
mutating operations, with every edge fed to `addLink`/`removeLink` built
from dash-free node ids. -/
inductive Reachable (resolve : Resolver) (r : Renderer) : LinkManagerState → Prop where
  | init : Reachable resolve r initialState
  | add (st : LinkManagerState) (e : ObsLink) (tagColors tagLegend : Bool) :
      Reachable resolve r st → dashFree e.source.id = true → dashFree e.target.id = true →
      Reachable resolve r (addLink resolve r st e tagColors tagLegend)
  | remove (st : LinkManagerState) (e : ObsLink) :
      Reachable resolve r st → dashFree e.source.id = true → dashFree e.target.id = true →
      Reachable resolve r (removeLink r st e)
  | reconcile (st : LinkManagerState) (live : List ObsLink) :
      Reachable resolve r st → Reachable resolve r (removeLinks r st live)
  | destroy (st : LinkManagerState) :
      Reachable resolve r st → Reachable resolve r (destroyMap r st)

/-- Every entry of the authoritative map is stored under the key generated
from its own endpoints (true by construction: `addLink` stores at that key
and the pair-status mutations keep the edge). -/
def keyCoherent (m : List (String × GltLink)) : Prop :=
  ∀ p ∈ m, p.1 = generateKey p.2.obsidianLink.source.id p.2.obsidianLink.target.id

/-- Every entry of the authoritative map has dash-free endpoint ids. -/
def dashFreeMap (m : List (String × GltLink)) : Prop :=
  ∀ p ∈ m, dashFree p.2.obsidianLink.source.id = true ∧
    dashFree p.2.obsidianLink.target.id = true

/-- Every tracked entry whose pair status is `First` or `Second` has its
mirror identity key tracked too. -/
def mirrorTracked (m : List (String × GltLink)) : Prop :=
  ∀ p ∈ m, p.2.pairStatus ≠ LinkPair.None →
    mapHas m (generateKey p.2.obsidianLink.target.id p.2.obsidianLink.source.id) = true

/-- The element ids referenced by an entry's pixi objects lie below `n`. -/
def entryIdsBelow (e : GltLink) (n : ℕ) : Prop :=
  (∀ t, e.pixiText = some t → t.elemId < n) ∧
    (∀ g, e.pixiGraphics = some g → g.elemId < n)

/-- Well-formedness of a `LinkManager` state: the display list has no
duplicates, every element id in the display list, in a tracked entry or in a
legend row is below the fresh-id counter, and the map is key-coherent.
All reachable states are well-formed. -/
def WF (st : LinkManagerState) : Prop :=
  st.stage.Nodup ∧
    (∀ i ∈ st.stage, i < st.nextElemId) ∧
    (∀ p ∈ st.linksMap, entryIdsBelow p.2 st.nextElemId) ∧
    (∀ p ∈ st.tagColors,
      p.2.legendTextId < st.nextElemId ∧ p.2.legendGraphicsId < st.nextElemId) ∧
    keyCoherent st.linksMap

/-- The authoritative map stores each key at most once (true in every
reachable state: `mapSet` replaces in place, `mapDelete` only removes). -/
def keysNodup (m : List (String × α)) : Prop :=
  (m.map Prod.fst).Nodup

/-- The core invariant of the authoritative map carried through the
reachability induction: unique keys, key coherence, dash-free endpoint ids
and mirror tracking. -/
def coreInv (m : List (String × GltLink)) : Prop :=
  keysNodup m ∧ keyCoherent m ∧ dashFreeMap m ∧ mirrorTracked m

/-- Element id `i` is spent: below the fresh-id counter and not attached to
the display list.  Once true it stays true (operations attach only fresh
ids). -/
def stale (i : ℕ) (st : LinkManagerState) : Prop :=
  i < st.nextElemId ∧ i ∉ st.stage

/-- One state evolves from another without recycling element ids: the
fresh-id counter does not decrease and everything newly on the display list
is either old or was fresh. -/
def stageMono (st st' : LinkManagerState) : Prop :=
  st.nextElemId ≤ st'.nextElemId ∧
    ∀ i ∈ st'.stage, i ∈ st.stage ∨ st.nextElemId ≤ i

/-- The display-list and id-counter invariant carried through the update
loop: no display-list duplicates, every attached id and every id referenced
by a tracked entry is below the fresh-id counter, keys are coherent and
unique. -/
def tickInv (st : LinkManagerState) : Prop :=
  st.stage.Nodup ∧
    (∀ i ∈ st.stage, i < st.nextElemId) ∧
    (∀ p ∈ st.linksMap, entryIdsBelow p.2 st.nextElemId) ∧
    keyCoherent st.linksMap ∧
    keysNodup st.linksMap

/-- A node endpoint at the origin with the given id and label opacity. -/
def mkEnd (id : String) (alpha : Option ℚ) : NodeEnd :=
  { id := id, x := 0, y := 0, weight := 0, textAlpha := alpha }

/-- An edge between two origin endpoints with the given ids. -/
def mkLink (a b : String) : ObsLink :=
  { source := mkEnd a none, target := mkEnd b none }

/-- The resolver that classifies no edge. -/
def noResolver : Resolver := fun _ _ => none

/-- The resolver that classifies every edge with the fixed label `lbl`. -/
def constResolver (lbl : String) : Resolver := fun _ _ => some lbl

/-- A fixed renderer view (identity pan/zoom). -/
def r0 : Renderer := { panX := 0, panY := 0, scale := 1, nodeScale := 1 }

/-- `acquireTagColor` iterated `n` times on the same label. -/
def acquireN (label : String) (tagLegend : Bool) (st : LinkManagerState) :
    ℕ → LinkManagerState
  | 0 => st
  | n + 1 => (acquireTagColor (acquireN label tagLegend st n) label tagLegend).2

/-- `releaseTagColor` iterated `n` times on the same label. -/
def releaseN (label : String) (st : LinkManagerState) : ℕ → LinkManagerState
  | 0 => st
  | n + 1 => releaseTagColor (releaseN label st n) label

/-! ### Concrete fixtures for evaluating the label-visibility policy -/

/-- A concrete attached label element: id 0, already on the stage. -/
def t8 : PixiText :=
  { elemId := 0, text := "rel", x := 0, y := 0, scaleFactor := 1,
    fill := "black", alpha := 0, zIndex := 0 }

/-- A concrete tracked entry for the edge u -> v carrying `t8`. -/
def e8 : GltLink :=
  { obsidianLink := mkLink "u" "v", pairStatus := LinkPair.None,
    pixiText := some t8, pixiGraphics := none }

/-- A concrete core state tracking `e8` under key "u-v" with `t8` staged. -/
def st8 : LinkManagerState :=
  { linksMap := [("u-v", e8)]
    tagColors := []
    currentTagColorIndex := 0
    yOffset := 5
    stage := [0]
    nextElemId := 1
    textColor := "" }

/-! ### Iterated-allocator fixtures for the reference-counting round trip -/

/-- The legend row a fresh `acquireTagColor` creates from state `st`. -/
def freshRow (st : LinkManagerState) (tl : Bool) : GltLegendGraphic :=
  { color := categoricalColors.getD st.currentTagColorIndex 0
    legendTextId := st.nextElemId
    legendTextAlpha := if tl then 1 else 0
    legendGraphicsId := st.nextElemId + 1
    legendGraphicsAlpha := if tl then 1 else 0
    nUsing := 0 }

/-- The state reached from `st` by a fresh acquire of label `L` whose row's
use counter currently stands at `j`. -/
def acquiredSt (st : LinkManagerState) (L : String) (tl : Bool) (j : ℤ) :
    LinkManagerState :=
  { st with
    currentTagColorIndex := (st.currentTagColorIndex + 1) % categoricalColors.length
    nextElemId := st.nextElemId + 2
    stage := st.stage ++ [st.nextElemId, st.nextElemId + 1]
    yOffset := st.yOffset + lineHeight
    tagColors := mapSet st.tagColors L ({ freshRow st tl with nUsing := j }) }

/-! ### Association-list lemmas for the JS `Map` model -/

theorem mapGet_nil (k : String) : mapGet ([] : List (String × α)) k = none := rfl

theorem mapGet_cons (p : String × α) (m : List (String × α)) (k : String) :
    mapGet (p :: m) k = if p.1 = k then some p.2 else mapGet m k := by
  by_cases h : p.1 = k <;> simp [mapGet, List.find?_cons, h]

theorem mapHas_nil (k : String) : mapHas ([] : List (String × α)) k = false := rfl

theorem mapHas_cons (p : String × α) (m : List (String × α)) (k : String) :
    mapHas (p :: m) k = (p.1 == k || mapHas m k) := by
  by_cases h : p.1 = k <;> simp [mapHas, mapGet_cons, h]

theorem mapGet_eq_none_iff (m : List (String × α)) (k : String) :
    mapGet m k = none ↔ mapHas m k = false := by
  rw [mapHas]
  cases mapGet m k <;> simp

theorem mapHas_eq_isSome (m : List (String × α)) (k : String) :
    mapHas m k = (mapGet m k).isSome := rfl

theorem mapHas_of_mem {m : List (String × α)} {p : String × α} (h : p ∈ m) :
    mapHas m p.1 = true := by
  induction m with
  | nil => simp at h
  | cons q m ih =>
    rw [mapHas_cons]
    rcases List.mem_cons.1 h with rfl | h2
    · simp
    · simp [ih h2]

theorem mapGet_append (m₁ m₂ : List (String × α)) (k : String) :
    mapGet (m₁ ++ m₂) k = (mapGet m₁ k).or (mapGet m₂ k) := by
  induction m₁ with
  | nil => simp [mapGet_nil]
  | cons p m ih =>
    by_cases h : p.1 = k <;> simp [mapGet_cons, h, ih]

theorem mapGet_replace_ne (m : List (String × α)) {k k' : String} (v : α) (h : k' ≠ k) :
    mapGet (m.map (fun p => if p.1 == k then (k, v) else p)) k' = mapGet m k' := by
  induction m with
  | nil => simp
  | cons p m ih =>
    simp only [beq_iff_eq] at ih
    by_cases hp : p.1 = k
    · simp [mapGet_cons, hp, Ne.symm h, ih]
    · by_cases hpk : p.1 = k'
      · simp [mapGet_cons, hp, hpk, h, Ne.symm h]
      · simp [mapGet_cons, hp, hpk, ih]

theorem mapGet_replace_self (m : List (String × α)) {k : String} (v : α)
    (h : mapHas m k = true) :
    mapGet (m.map (fun p => if p.1 == k then (k, v) else p)) k = some v := by
  induction m with
  | nil => simp [mapHas_nil] at h
  | cons p m ih =>
    simp only [beq_iff_eq] at ih
    by_cases hp : p.1 = k
    · simp [mapGet_cons, hp]
    · rw [mapHas_cons] at h
      simp only [Bool.or_eq_true, beq_iff_eq, hp, false_or] at h
      simp [mapGet_cons, hp, ih h]

theorem mapGet_mapSet (m : List (String × α)) (k k' : String) (v : α) :
    mapGet (mapSet m k v) k' = if k' = k then some v else mapGet m k' := by
  unfold mapSet
  by_cases hh : mapHas m k = true
  · rw [if_pos hh]
    by_cases hk : k' = k
    · subst hk; rw [if_pos rfl]; exact mapGet_replace_self m v hh
    · rw [if_neg hk]; exact mapGet_replace_ne m v hk
  · rw [if_neg hh, mapGet_append]
    by_cases hk : k' = k
    · subst hk
      rw [(mapGet_eq_none_iff m k').2 (by simpa using hh)]
      simp [mapGet_cons]
    · rw [if_neg hk]
      simp [mapGet_cons, Ne.symm hk, mapGet_nil]

theorem mapDelete_cons_of_eq {p : String × α} {m : List (String × α)} {k : String}
    (h : p.1 = k) : mapDelete (p :: m) k = mapDelete m k := by
  simp [mapDelete, List.filter_cons, h]

theorem mapDelete_cons_of_ne {p : String × α} {m : List (String × α)} {k : String}
    (h : p.1 ≠ k) : mapDelete (p :: m) k = p :: mapDelete m k := by
  simp [mapDelete, List.filter_cons, h]

theorem mapGet_mapDelete (m : List (String × α)) (k k' : String) :
    mapGet (mapDelete m k) k' = if k' = k then none else mapGet m k' := by
  induction m with
  | nil => simp [mapDelete, mapGet_nil]
  | cons p m ih =>
    by_cases hp : p.1 = k
    · rw [mapDelete_cons_of_eq hp, ih]
      by_cases hk : k' = k
      · simp [hk]
      · have hpk : p.1 ≠ k' := by rw [hp]; exact Ne.symm hk
        rw [if_neg hk, if_neg hk, mapGet_cons, if_neg hpk]
    · rw [mapDelete_cons_of_ne hp, mapGet_cons, mapGet_cons, ih]
      by_cases hpk : p.1 = k'
      · have hk : k' ≠ k := fun hkk => hp (hpk.trans hkk)
        simp [hpk, hk]
      · by_cases hk : k' = k <;> simp [hpk, hk, hp]

theorem mapHas_mapSet (m : List (String × α)) (k k' : String) (v : α) :
    mapHas (mapSet m k v) k' = (k' == k || mapHas m k') := by
  rw [mapHas_eq_isSome, mapGet_mapSet]
  by_cases hk : k' = k <;> simp [hk, mapHas_eq_isSome]

theorem mapHas_mapDelete (m : List (String × α)) (k k' : String) :
    mapHas (mapDelete m k) k' = (!(k' == k) && mapHas m k') := by
  rw [mapHas_eq_isSome, mapGet_mapDelete]
  by_cases hk : k' = k <;> simp [hk, mapHas_eq_isSome]

theorem mapDelete_of_not_has (m : List (String × α)) (k : String)
    (h : mapHas m k = false) : mapDelete m k = m := by
  induction m with
  | nil => rfl
  | cons p m ih =>
    rw [mapHas_cons] at h
    simp only [Bool.or_eq_false_iff] at h
    have h1 : p.1 ≠ k := by simpa using h.1
    rw [mapDelete_cons_of_ne h1, ih h.2]

theorem mapDelete_append (m₁ m₂ : List (String × α)) (k : String) :
    mapDelete (m₁ ++ m₂) k = mapDelete m₁ k ++ mapDelete m₂ k := by
  simp [mapDelete, List.filter_append]

theorem mapDelete_mapSet_self (m : List (String × α)) (k : String) (v : α)
    (h : mapHas m k = false) : mapDelete (mapSet m k v) k = m := by
  unfold mapSet
  rw [if_neg (by simp [h])]
  rw [mapDelete_append, mapDelete_of_not_has m k h]
  rw [mapDelete_cons_of_eq rfl]
  simp [mapDelete]

theorem mapSet_mapSet_self (m : List (String × α)) (k : String) (v w : α) :
    mapSet (mapSet m k v) k w = mapSet m k w := by
  have hset : mapHas (mapSet m k v) k = true := by rw [mapHas_mapSet]; simp
  by_cases hh : mapHas m k = true
  · conv_lhs => rw [mapSet, if_pos hset]
    rw [mapSet, if_pos hh, mapSet, if_pos hh, List.map_map]
    congr 1
    funext p
    by_cases hp : p.1 = k <;> simp [hp]
  · conv_lhs => rw [mapSet, if_pos hset]
    rw [mapSet, if_neg hh, mapSet, if_neg hh, List.map_append]
    congr 1
    · refine (List.map_congr_left ?_).trans (List.map_id _)
      intro p hp
      have := mapHas_of_mem hp
      have hpk : p.1 ≠ k := by
        intro hkk
        rw [hkk] at this
        simp [this] at hh
      simp [hpk]
    · rw [List.map_cons]
      simp

theorem mem_mapSet {m : List (String × α)} {k : String} {v : α} {p : String × α}
    (h : p ∈ mapSet m k v) : p = (k, v) ∨ (p ∈ m ∧ p.1 ≠ k) := by
  unfold mapSet at h
  by_cases hh : mapHas m k = true
  · rw [if_pos hh] at h
    obtain ⟨q, hq, hmap⟩ := List.mem_map.1 h
    by_cases hqk : q.1 = k
    · left; rw [← hmap]; simp [hqk]
    · right
      have hq2 : (if (q.1 == k) = true then (k, v) else q) = q := by simp [hqk]
      rw [← hmap, hq2]
      exact ⟨hq, hqk⟩
  · rw [if_neg hh] at h
    rcases List.mem_append.1 h with hm | hs
    · right
      refine ⟨hm, fun hk => ?_⟩
      have := mapHas_of_mem hm
      rw [hk] at this
      simp [this] at hh
    · left; simpa using hs

theorem mem_mapDelete {m : List (String × α)} {k : String} {p : String × α} :
    p ∈ mapDelete m k ↔ p ∈ m ∧ p.1 ≠ k := by
  simp [mapDelete, List.mem_filter]

/-! ### Frame and equation lemmas for the operations -/

/-- `updateLinkText` mutates only `linksMap`. -/
theorem updateLinkText_frame (r : Renderer) (st : LinkManagerState) (l : ObsLink)
    (b : Bool) :
    (updateLinkText r st l b).tagColors = st.tagColors ∧
    (updateLinkText r st l b).currentTagColorIndex = st.currentTagColorIndex ∧
    (updateLinkText r st l b).yOffset = st.yOffset ∧
    (updateLinkText r st l b).stage = st.stage ∧
    (updateLinkText r st l b).nextElemId = st.nextElemId ∧
    (updateLinkText r st l b).textColor = st.textColor := by
  have h : ∀ x : LinkManagerState, x = updateLinkText r st l b →
      x.tagColors = st.tagColors ∧ x.currentTagColorIndex = st.currentTagColorIndex ∧
        x.yOffset = st.yOffset ∧ x.stage = st.stage ∧ x.nextElemId = st.nextElemId ∧
        x.textColor = st.textColor := by
    intro x hx
    unfold updateLinkText at hx
    dsimp only at hx
    rcases hm : mapGet st.linksMap (generateKey l.source.id l.target.id) with _ | gl
    · rw [hm] at hx; subst hx; exact ⟨rfl, rfl, rfl, rfl, rfl, rfl⟩
    · rw [hm] at hx
      dsimp only at hx
      rcases ht : gl.pixiText with _ | t
      · rw [ht] at hx; subst hx; exact ⟨rfl, rfl, rfl, rfl, rfl, rfl⟩
      · rw [ht] at hx
        dsimp only at hx
        by_cases hc : st.stage.contains t.elemId = true
        · rw [if_pos hc] at hx; subst hx; exact ⟨rfl, rfl, rfl, rfl, rfl, rfl⟩
        · rw [if_neg hc] at hx; subst hx; exact ⟨rfl, rfl, rfl, rfl, rfl, rfl⟩
  exact h _ rfl

/-- `updateLinkGraphics` mutates only `linksMap`. -/
theorem updateLinkGraphics_frame (r : Renderer) (st : LinkManagerState) (l : ObsLink) :
    (updateLinkGraphics r st l).tagColors = st.tagColors ∧
    (updateLinkGraphics r st l).currentTagColorIndex = st.currentTagColorIndex ∧
    (updateLinkGraphics r st l).yOffset = st.yOffset ∧
    (updateLinkGraphics r st l).stage = st.stage ∧
    (updateLinkGraphics r st l).nextElemId = st.nextElemId ∧
    (updateLinkGraphics r st l).textColor = st.textColor := by
  have h : ∀ x : LinkManagerState, x = updateLinkGraphics r st l →
      x.tagColors = st.tagColors ∧ x.currentTagColorIndex = st.currentTagColorIndex ∧
        x.yOffset = st.yOffset ∧ x.stage = st.stage ∧ x.nextElemId = st.nextElemId ∧
        x.textColor = st.textColor := by
    intro x hx
    unfold updateLinkGraphics at hx
    dsimp only at hx
    rcases hm : mapGet st.linksMap (generateKey l.source.id l.target.id) with _ | gl
    · rw [hm] at hx; subst hx; exact ⟨rfl, rfl, rfl, rfl, rfl, rfl⟩
    · rw [hm] at hx
      dsimp only at hx
      rcases ht : gl.pixiGraphics with _ | g
      · rw [ht] at hx; subst hx; exact ⟨rfl, rfl, rfl, rfl, rfl, rfl⟩
      · rw [ht] at hx
        dsimp only at hx
        by_cases hc : st.stage.contains g.elemId = true
        · rw [if_pos hc] at hx; subst hx; exact ⟨rfl, rfl, rfl, rfl, rfl, rfl⟩
        · rw [if_neg hc] at hx; subst hx; exact ⟨rfl, rfl, rfl, rfl, rfl, rfl⟩
  exact h _ rfl

/-- A successful `mapGet` returns a pair that is in the list, stored under
the queried key. -/
theorem mapGet_mem {m : List (String × α)} {k : String} {v : α}
    (h : mapGet m k = some v) : (k, v) ∈ m := by
  induction m with
  | nil => simp [mapGet_nil] at h
  | cons p m ih =>
    rw [mapGet_cons] at h
    by_cases hp : p.1 = k
    · rw [if_pos hp] at h
      have hv : p = (k, v) := by
        cases h
        exact Prod.ext hp rfl
      rw [← hv]
      exact List.mem_cons_self _ _
    · rw [if_neg hp] at h
      exact List.mem_cons_of_mem _ (ih h)

/-- `updateLinkText` preserves `mapHas` on `linksMap`. -/
theorem updateLinkText_mapHas (r : Renderer) (st : LinkManagerState) (l : ObsLink)
    (b : Bool) (k : String) :
    mapHas (updateLinkText r st l b).linksMap k = mapHas st.linksMap k := by
  have h : ∀ x : LinkManagerState, x = updateLinkText r st l b →
      mapHas x.linksMap k = mapHas st.linksMap k := by
    intro x hx
    unfold updateLinkText at hx
    dsimp only at hx
    rcases hm : mapGet st.linksMap (generateKey l.source.id l.target.id) with _ | gl
    · rw [hm] at hx; subst hx; rfl
    · rw [hm] at hx
      dsimp only at hx
      rcases ht : gl.pixiText with _ | t
      · rw [ht] at hx; subst hx; rfl
      · rw [ht] at hx
        dsimp only at hx
        by_cases hc : st.stage.contains t.elemId = true
        · rw [if_pos hc] at hx
          subst hx
          dsimp only
          rw [mapHas_mapSet]
          by_cases hk : k = generateKey l.source.id l.target.id
          · subst hk
            simp [mapHas, hm]
          · simp [hk]
        · rw [if_neg hc] at hx; subst hx; rfl
  exact h _ rfl

/-- `updateLinkGraphics` preserves `mapHas` on `linksMap`. -/
theorem updateLinkGraphics_mapHas (r : Renderer) (st : LinkManagerState) (l : ObsLink)
    (k : String) :
    mapHas (updateLinkGraphics r st l).linksMap k = mapHas st.linksMap k := by
  have h : ∀ x : LinkManagerState, x = updateLinkGraphics r st l →
      mapHas x.linksMap k = mapHas st.linksMap k := by
    intro x hx
    unfold updateLinkGraphics at hx
    dsimp only at hx
    rcases hm : mapGet st.linksMap (generateKey l.source.id l.target.id) with _ | gl
    · rw [hm] at hx; subst hx; rfl
    · rw [hm] at hx
      dsimp only at hx
      rcases ht : gl.pixiGraphics with _ | g
      · rw [ht] at hx; subst hx; rfl
      · rw [ht] at hx
        dsimp only at hx
        by_cases hc : st.stage.contains g.elemId = true
        · rw [if_pos hc] at hx
          subst hx
          dsimp only
          rw [mapHas_mapSet]
          by_cases hk : k = generateKey l.source.id l.target.id
          · subst hk
            simp [mapHas, hm]
          · simp [hk]
        · rw [if_neg hc] at hx; subst hx; rfl
  exact h _ rfl

/-- `updateLinkText` on an untracked key is the identity. -/
theorem updateLinkText_not_tracked (r : Renderer) (st : LinkManagerState) (l : ObsLink)
    (b : Bool) (h : mapGet st.linksMap (generateKey l.source.id l.target.id) = none) :
    updateLinkText r st l b = st := by
  unfold updateLinkText
  dsimp only
  rw [h]

/-- `updateLinkGraphics` on an untracked key is the identity. -/
theorem updateLinkGraphics_not_tracked (r : Renderer) (st : LinkManagerState)
    (l : ObsLink) (h : mapGet st.linksMap (generateKey l.source.id l.target.id) = none) :
    updateLinkGraphics r st l = st := by
  unfold updateLinkGraphics
  dsimp only
  rw [h]

/-- `initializeLinkText` when the resolver yields no key: no text, state
untouched. -/
theorem initializeLinkText_none (resolve : Resolver) (r : Renderer)
    (st : LinkManagerState) (l : ObsLink) (ps : LinkPair)
    (h : resolve l.source.id l.target.id = none) :
    initializeLinkText resolve r st l ps = (none, st) := by
  unfold initializeLinkText
  rw [h]

/-- `initializeLinkText` when the resolver yields a key: the created text and
the state after the creation, the (pre-attachment) `updateLinkText` call and
the stage insertion. -/
theorem initializeLinkText_some (resolve : Resolver) (r : Renderer)
    (st : LinkManagerState) (l : ObsLink) (ps : LinkPair) (s0 : String)
    (h : resolve l.source.id l.target.id = some s0) :
    initializeLinkText resolve r st l ps =
      (let s1 := if l.source.id = l.target.id then "" else s0
       let s2 := match ps with
         | .First => s1 ++ "\n\n"
         | .Second => "\n\n" ++ s1
         | .None => s1
       let text : PixiText :=
         { elemId := st.nextElemId, text := s2, x := 0, y := 0, scaleFactor := 1,
           fill := st.textColor, alpha := 1, zIndex := 1 }
       let st1 := updateLinkText r { st with nextElemId := st.nextElemId + 1 } l false
       (some text, { st1 with stage := st1.stage ++ [st.nextElemId] })) := by
  unfold initializeLinkText
  rw [h]

/-- `initializeLinkGraphics` when the resolver yields no key: no graphics,
state untouched. -/
theorem initializeLinkGraphics_none (resolve : Resolver) (r : Renderer)
    (st : LinkManagerState) (l : ObsLink) (tl : Bool)
    (h : resolve l.source.id l.target.id = none) :
    initializeLinkGraphics resolve r st l tl = (none, st) := by
  unfold initializeLinkGraphics
  rw [h]

/-- `initializeLinkGraphics` on a self-loop whose resolver yields a key: the
graphics is created with no stroke color, the legend allocator is not
consulted. -/
theorem initializeLinkGraphics_self (resolve : Resolver) (r : Renderer)
    (st : LinkManagerState) (l : ObsLink) (tl : Bool) (s0 : String)
    (h : resolve l.source.id l.target.id = some s0)
    (hself : l.source.id = l.target.id) :
    initializeLinkGraphics resolve r st l tl =
      (let graphics : PixiGraphics :=
         { elemId := st.nextElemId, strokeColor := none, alpha := 1, zIndex := 0 }
       let st1 := { st with nextElemId := st.nextElemId + 1,
                            stage := st.stage ++ [st.nextElemId] }
       (some graphics, updateLinkGraphics r st1 l)) := by
  unfold initializeLinkGraphics
  rw [h]
  dsimp only
  rw [if_pos hself]

/-- `initializeLinkGraphics` on a non-self-loop whose resolver yields a key:
the color comes from the legend allocator and is recorded as the stroke
color. -/
theorem initializeLinkGraphics_nonself (resolve : Resolver) (r : Renderer)
    (st : LinkManagerState) (l : ObsLink) (tl : Bool) (s0 : String)
    (h : resolve l.source.id l.target.id = some s0)
    (hself : l.source.id ≠ l.target.id) :
    initializeLinkGraphics resolve r st l tl =
      (let q := acquireTagColor st s0 tl
       let graphics : PixiGraphics :=
         { elemId := q.2.nextElemId, strokeColor := some q.1, alpha := 1, zIndex := 0 }
       let st1 := { q.2 with nextElemId := q.2.nextElemId + 1,
                             stage := q.2.stage ++ [q.2.nextElemId] }
       (some graphics, updateLinkGraphics r st1 l)) := by
  unfold initializeLinkGraphics
  rw [h]
  dsimp only
  rw [if_neg hself]

/-- `acquireTagColor` on a label with no legend row yet. -/
theorem acquireTagColor_new (st : LinkManagerState) (s : String) (tl : Bool)
    (h : mapHas st.tagColors s = false) :
    acquireTagColor st s tl =
      (categoricalColors.getD st.currentTagColorIndex 0,
       { st with
         currentTagColorIndex := (st.currentTagColorIndex + 1) % categoricalColors.length
         nextElemId := st.nextElemId + 2
         stage := st.stage ++ [st.nextElemId, st.nextElemId + 1]
         yOffset := st.yOffset + lineHeight
         tagColors := mapSet st.tagColors s
           { color := categoricalColors.getD st.currentTagColorIndex 0
             legendTextId := st.nextElemId
             legendTextAlpha := if tl then 1 else 0
             legendGraphicsId := st.nextElemId + 1
             legendGraphicsAlpha := if tl then 1 else 0
             nUsing := 0 } }) := by
  unfold acquireTagColor
  rw [if_pos (by simp [h])]

/-- `acquireTagColor` on a label that already has a legend row: bump
`nUsing`, reuse the color. -/
theorem acquireTagColor_existing (st : LinkManagerState) (s : String) (tl : Bool)
    (g : GltLegendGraphic) (h : mapGet st.tagColors s = some g) :
    acquireTagColor st s tl =
      (g.color,
       { st with tagColors := mapSet st.tagColors s ({ g with nUsing := g.nUsing + 1 }) }) := by
  unfold acquireTagColor
  rw [if_neg (by simp [mapHas, h]), h]

/-- `releaseTagColor` on a label with no legend row is the identity. -/
theorem releaseTagColor_absent (st : LinkManagerState) (ck : String)
    (h : mapHas st.tagColors ck = false) :
    releaseTagColor st ck = st := by
  unfold releaseTagColor
  rw [if_pos (by simp [h])]

/-- `releaseTagColor` when the decremented count stays at least 1: only the
count changes. -/
theorem releaseTagColor_dec (st : LinkManagerState) (ck : String)
    (g : GltLegendGraphic) (h : mapGet st.tagColors ck = some g)
    (hn : ¬(g.nUsing - 1 < 1)) :
    releaseTagColor st ck =
      { st with tagColors := mapSet st.tagColors ck ({ g with nUsing := g.nUsing - 1 }) } := by
  unfold releaseTagColor
  rw [if_neg (by simp [mapHas, h]), h]
  dsimp only
  rw [if_neg hn]

/-- `releaseTagColor` when the decremented count drops below 1: the row is
reclaimed — `yOffset` and the palette cursor roll back, the row's elements
are detached, the row is deleted. -/
theorem releaseTagColor_reclaim (st : LinkManagerState) (ck : String)
    (g : GltLegendGraphic) (h : mapGet st.tagColors ck = some g)
    (hn : g.nUsing - 1 < 1) :
    releaseTagColor st ck =
      (let st1 : LinkManagerState :=
        { st with
          tagColors := mapSet st.tagColors ck ({ g with nUsing := g.nUsing - 1 })
          yOffset := st.yOffset - lineHeight
          currentTagColorIndex :=
            if st.currentTagColorIndex = 0 then categoricalColors.length - 1
            else st.currentTagColorIndex - 1 }
       let stage1 :=
         if st1.stage.contains g.legendTextId then st1.stage.erase g.legendTextId
         else st1.stage
       let stage2 :=
         if stage1.contains g.legendGraphicsId then stage1.erase g.legendGraphicsId
         else stage1
       { st1 with stage := stage2,
                  tagColors := mapDelete (mapSet st.tagColors ck
                    ({ g with nUsing := g.nUsing - 1 })) ck }) := by
  unfold releaseTagColor
  rw [if_neg (by simp [mapHas, h]), h]
  dsimp only
  rw [if_pos hn]

/-- `mapGet` after setting the same key. -/
theorem mapGet_mapSet_self (m : List (String × α)) (k : String) (v : α) :
    mapGet (mapSet m k v) k = some v := by
  rw [mapGet_mapSet]
  simp

/-! ### Claim C9 -/

/-- C9: the edge-identity key function is not injective.  The distinct
ordered endpoint pairs ("a-b", "c") and ("a", "b-c") — with ids containing
the separator character '-' — generate the same key "a-b-c", and adding two
such edges from the empty state leaves a single entry in the authoritative
map (the second `addLink` overwrites the first). -/
theorem C9_generateKey_not_injective :
    ∃ s t s2 t2 : String,
      (s, t) ≠ (s2, t2) ∧
      dashFree s = false ∧ dashFree t2 = false ∧
      generateKey s t = generateKey s2 t2 ∧
      (addLink noResolver r0
          (addLink noResolver r0 initialState (mkLink s t) false false)
          (mkLink s2 t2) false false).linksMap.length = 1 := by
  refine ⟨"a-b", "c", "a", "b-c", by decide, by decide, by decide, by decide, by decide⟩

/-! ### Claim C2 -/

/-- C2 (code-bug evidence): creating a legend row through `addLink` for a
fresh label stores the row with `nUsing = 0`, not 1 — the spec's
`useCount = 1` on creation (and the invariant `useCount ≥ 1` while present)
is violated on the very first acquisition. -/
theorem C2_fresh_legend_row_has_nUsing_zero :
    (mapGet (addLink (constResolver "parent") r0 initialState (mkLink "A" "B")
        true true).tagColors "parent").map GltLegendGraphic.nUsing = some 0 ∧
      ¬ ((0 : ℤ) ≥ 1) := by
  exact ⟨by decide, by decide⟩

/-! ### Claim C1 -/

/-- C1 (counterexample): for a self-loop edge whose identity the resolver
does classify (here with key "k"), the Overlay Entry created by `addLink`
does **not** have `label = null`: the source builds a `Text` whose content is
forced to the empty string, so `pixiText` is `some` text, not `none`. -/
theorem C1_counterexample_label_not_null :
    constResolver "k" (mkLink "A" "A").source.id (mkLink "A" "A").target.id = some "k" ∧
    (mkLink "A" "A").source.id = (mkLink "A" "A").target.id ∧
    ((mapGet (addLink (constResolver "k") r0 initialState (mkLink "A" "A") true
        true).linksMap (generateKey "A" "A")).bind GltLink.pixiText).isSome = true := by
  exact ⟨by decide, by decide, by decide⟩

/-- C1 (amended): for a self-loop edge, whatever the resolver returns, the
entry created by `addLink` has a label that is either absent or has empty
text content, its indicator (when present) carries no stroke color metadata,
and the legend allocator state (legend map, palette cursor, vertical offset)
is untouched. -/
theorem C1_selfLoop_suppression (resolve : Resolver) (r : Renderer)
    (st : LinkManagerState) (link : ObsLink) (tagColors tagLegend : Bool)
    (h : link.source.id = link.target.id) :
    ∃ e : GltLink,
      mapGet (addLink resolve r st link tagColors tagLegend).linksMap
        (generateKey link.source.id link.target.id) = some e ∧
      (e.pixiText = none ∨ ∃ t, e.pixiText = some t ∧ t.text = "") ∧
      (e.pixiGraphics = none ∨ ∃ g, e.pixiGraphics = some g ∧ g.strokeColor = none) ∧
      (addLink resolve r st link tagColors tagLegend).tagColors = st.tagColors ∧
      (addLink resolve r st link tagColors tagLegend).currentTagColorIndex =
        st.currentTagColorIndex ∧
      (addLink resolve r st link tagColors tagLegend).yOffset = st.yOffset := by
  have hbne : (link.source.id != link.target.id) = false := by simp [h]
  unfold addLink
  dsimp only
  simp only [hbne, Bool.false_and, Bool.false_eq_true, if_false, Bool.not_false, if_true]
  rcases hres : resolve link.source.id link.target.id with _ | s0
  · rw [initializeLinkText_none resolve r st link _ hres]
    dsimp only
    cases tagColors with
    | false =>
      simp only [Bool.false_eq_true, if_false]
      refine ⟨_, mapGet_mapSet_self _ _ _, Or.inl rfl, Or.inl rfl, ?_, ?_, ?_⟩ <;> trivial
    | true =>
      simp only [if_true]
      rw [initializeLinkGraphics_none resolve r st link _ hres]
      dsimp only
      refine ⟨_, mapGet_mapSet_self _ _ _, Or.inl rfl, Or.inl rfl, ?_, ?_, ?_⟩ <;> trivial
  · rw [initializeLinkText_some resolve r st link _ s0 hres]
    dsimp only
    rw [if_pos h]
    cases tagColors with
    | false =>
      simp only [Bool.false_eq_true, if_false]
      refine ⟨_, mapGet_mapSet_self _ _ _, Or.inr ⟨_, rfl, rfl⟩, Or.inl rfl, ?_, ?_, ?_⟩
      · dsimp only
        rw [(updateLinkText_frame r _ link false).1]
      · dsimp only
        rw [(updateLinkText_frame r _ link false).2.1]
      · dsimp only
        rw [(updateLinkText_frame r _ link false).2.2.1]
    | true =>
      simp only [if_true]
      rw [initializeLinkGraphics_self resolve r _ link tagLegend s0 hres h]
      dsimp only
      refine ⟨_, mapGet_mapSet_self _ _ _, Or.inr ⟨_, rfl, rfl⟩, Or.inr ⟨_, rfl, rfl⟩,
        ?_, ?_, ?_⟩
      · rw [(updateLinkGraphics_frame r _ link).1]
        dsimp only
        rw [(updateLinkText_frame r _ link false).1]
      · rw [(updateLinkGraphics_frame r _ link).2.1]
        dsimp only
        rw [(updateLinkText_frame r _ link false).2.1]
      · rw [(updateLinkGraphics_frame r _ link).2.2.1]
        dsimp only
        rw [(updateLinkText_frame r _ link false).2.2.1]

/-- C1 witness: the amended self-loop property evaluated on a concrete
self-loop with a resolver that classifies it. -/
theorem C1_selfLoop_suppression_witness :
    ∃ e : GltLink,
      mapGet (addLink (constResolver "k") r0 initialState (mkLink "A" "A") true
        true).linksMap (generateKey "A" "A") = some e ∧
      (e.pixiText = none ∨ ∃ t, e.pixiText = some t ∧ t.text = "") ∧
      (e.pixiGraphics = none ∨ ∃ g, e.pixiGraphics = some g ∧ g.strokeColor = none) ∧
      (addLink (constResolver "k") r0 initialState (mkLink "A" "A") true
          true).tagColors = initialState.tagColors ∧
      (addLink (constResolver "k") r0 initialState (mkLink "A" "A") true
          true).currentTagColorIndex = initialState.currentTagColorIndex ∧
      (addLink (constResolver "k") r0 initialState (mkLink "A" "A") true
          true).yOffset = initialState.yOffset := by
  exact C1_selfLoop_suppression (constResolver "k") r0 initialState (mkLink "A" "A")
    true true rfl

/-- `releaseTagColor` mutates only the legend allocator state. -/
theorem releaseTagColor_frame (st : LinkManagerState) (ck : String) :
    (releaseTagColor st ck).linksMap = st.linksMap ∧
    (releaseTagColor st ck).nextElemId = st.nextElemId ∧
    (releaseTagColor st ck).textColor = st.textColor := by
  by_cases hh : mapHas st.tagColors ck = true
  · obtain ⟨g, hg⟩ := Option.isSome_iff_exists.1 hh
    by_cases hn : g.nUsing - 1 < 1
    · rw [releaseTagColor_reclaim st ck g hg hn]
      exact ⟨rfl, rfl, rfl⟩
    · rw [releaseTagColor_dec st ck g hg hn]
      exact ⟨rfl, rfl, rfl⟩
  · rw [releaseTagColor_absent st ck (by simpa using hh)]
    exact ⟨rfl, rfl, rfl⟩

/-- `acquireTagColor` mutates only the legend allocator state, the stage and
the id counter. -/
theorem acquireTagColor_frame (st : LinkManagerState) (s : String) (tl : Bool) :
    (acquireTagColor st s tl).2.linksMap = st.linksMap ∧
    (acquireTagColor st s tl).2.textColor = st.textColor := by
  by_cases hh : mapHas st.tagColors s = true
  · obtain ⟨g, hg⟩ := Option.isSome_iff_exists.1 hh
    rw [acquireTagColor_existing st s tl g hg]
    exact ⟨rfl, rfl⟩
  · rw [acquireTagColor_new st s tl (by simpa using hh)]
    exact ⟨rfl, rfl⟩

/-- `removeLinkDetach` mutates only the stage. -/
theorem removeLinkDetach_frame (st : LinkManagerState) (gl : Option GltLink) :
    (removeLinkDetach st gl).linksMap = st.linksMap ∧
    (removeLinkDetach st gl).tagColors = st.tagColors ∧
    (removeLinkDetach st gl).currentTagColorIndex = st.currentTagColorIndex ∧
    (removeLinkDetach st gl).yOffset = st.yOffset ∧
    (removeLinkDetach st gl).nextElemId = st.nextElemId ∧
    (removeLinkDetach st gl).textColor = st.textColor := by
  unfold removeLinkDetach
  refine ⟨?_, ?_, ?_, ?_, ?_, ?_⟩ <;> (dsimp only; repeat' (first | split | dsimp only)) <;> rfl

/-- `removeLinkRelease` never touches `linksMap`, `nextElemId` or
`textColor`. -/
theorem removeLinkRelease_frame (st : LinkManagerState) (gl : Option GltLink) :
    (removeLinkRelease st gl).linksMap = st.linksMap ∧
    (removeLinkRelease st gl).nextElemId = st.nextElemId ∧
    (removeLinkRelease st gl).textColor = st.textColor := by
  unfold removeLinkRelease
  dsimp only
  rcases hk : gl.bind (fun g => g.pixiText.map (fun t => stripNewlines t.text)) with _ | ck
  · rw [hk]
    exact ⟨rfl, rfl, rfl⟩
  · rw [hk]
    dsimp only
    by_cases hck : ck ≠ ""
    · rw [if_pos hck]
      exact releaseTagColor_frame st ck
    · rw [if_neg hck]
      exact ⟨rfl, rfl, rfl⟩

/-- The full effect of `removeLink` on the authoritative map: delete the
entry's key, then reset the mirror entry's `pairStatus` when present and not
already `None`. -/
theorem removeLink_linksMap (r : Renderer) (st : LinkManagerState) (l : ObsLink) :
    (removeLink r st l).linksMap =
      (let m1 := mapDelete st.linksMap (generateKey l.source.id l.target.id)
       match mapGet m1 (generateKey l.target.id l.source.id) with
       | some rl =>
         if rl.pairStatus ≠ LinkPair.None then
           mapSet m1 (generateKey l.target.id l.source.id)
             ({ rl with pairStatus := LinkPair.None })
         else m1
       | none => m1) := by
  unfold removeLink
  dsimp only
  have h1 : (removeLinkRelease (removeLinkDetach st
      (mapGet st.linksMap (generateKey l.source.id l.target.id)))
      (mapGet st.linksMap (generateKey l.source.id l.target.id))).linksMap =
        st.linksMap := by
    rw [(removeLinkRelease_frame _ _).1, (removeLinkDetach_frame _ _).1]
  rw [h1]
  rcases hrev : mapGet (mapDelete st.linksMap (generateKey l.source.id l.target.id))
      (generateKey l.target.id l.source.id) with _ | rl
  · rfl
  · dsimp only
    by_cases hs : rl.pairStatus ≠ LinkPair.None
    · rw [if_pos hs, if_pos hs]
    · rw [if_neg hs, if_neg hs]

/-- `initializeLinkText` does not change `linksMap` when the link's key is
untracked (the embedded pre-attachment `updateLinkText` call finds nothing). -/
theorem initializeLinkText_linksMap_untracked (resolve : Resolver) (r : Renderer)
    (st : LinkManagerState) (l : ObsLink) (ps : LinkPair)
    (h : mapGet st.linksMap (generateKey l.source.id l.target.id) = none) :
    (initializeLinkText resolve r st l ps).2.linksMap = st.linksMap := by
  rcases hres : resolve l.source.id l.target.id with _ | s0
  · rw [initializeLinkText_none resolve r st l ps hres]
  · rw [initializeLinkText_some resolve r st l ps s0 hres]
    dsimp only
    rw [updateLinkText_not_tracked r ({ st with nextElemId := st.nextElemId + 1 }) l false h]

/-- `initializeLinkGraphics` does not change `linksMap` when the link's key
is untracked. -/
theorem initializeLinkGraphics_linksMap_untracked (resolve : Resolver) (r : Renderer)
    (st : LinkManagerState) (l : ObsLink) (tl : Bool)
    (h : mapGet st.linksMap (generateKey l.source.id l.target.id) = none) :
    (initializeLinkGraphics resolve r st l tl).2.linksMap = st.linksMap := by
  rcases hres : resolve l.source.id l.target.id with _ | s0
  · rw [initializeLinkGraphics_none resolve r st l tl hres]
  · by_cases hself : l.source.id = l.target.id
    · rw [initializeLinkGraphics_self resolve r st l tl s0 hres hself]
      dsimp only
      rw [updateLinkGraphics_not_tracked r
        ({ st with nextElemId := st.nextElemId + 1, stage := st.stage ++ [st.nextElemId] })
        l h]
    · rw [initializeLinkGraphics_nonself resolve r st l tl s0 hres hself]
      dsimp only
      rw [updateLinkGraphics_not_tracked r
        ({ (acquireTagColor st s0 tl).2 with
            nextElemId := (acquireTagColor st s0 tl).2.nextElemId + 1
            stage := (acquireTagColor st s0 tl).2.stage ++
              [(acquireTagColor st s0 tl).2.nextElemId] })
        l (by
          show mapGet (acquireTagColor st s0 tl).2.linksMap
            (generateKey l.source.id l.target.id) = none
          rw [(acquireTagColor_frame st s0 tl).1]
          exact h)]
      dsimp only
      rw [(acquireTagColor_frame st s0 tl).1]

/-- The full effect of `addLink` on the authoritative map when the link's
key is untracked: compute the pair status against the current map, store the
new entry at its key, then flip the mirror entry to `First` when the edge is
not a self-loop and the mirror key is tracked in the updated map. -/
theorem addLink_linksMap (resolve : Resolver) (r : Renderer) (st : LinkManagerState)
    (l : ObsLink) (tc tl : Bool)
    (h : mapGet st.linksMap (generateKey l.source.id l.target.id) = none) :
    ∃ tOpt gOpt,
      (addLink resolve r st l tc tl).linksMap =
        (let ps :=
          if (l.source.id != l.target.id) &&
              mapHas st.linksMap (generateKey l.target.id l.source.id) then
            LinkPair.Second
          else LinkPair.None
         let m1 := mapSet st.linksMap (generateKey l.source.id l.target.id)
           { obsidianLink := l, pairStatus := ps, pixiText := tOpt, pixiGraphics := gOpt }
         if !((l.source.id != l.target.id) &&
             mapHas m1 (generateKey l.target.id l.source.id)) then m1
         else
           match mapGet m1 (generateKey l.target.id l.source.id) with
           | some rl =>
             mapSet m1 (generateKey l.target.id l.source.id)
               ({ rl with pairStatus := LinkPair.First })
           | none => m1) := by
  refine ⟨(initializeLinkText resolve r st l
      (if (l.source.id != l.target.id) &&
          mapHas st.linksMap (generateKey l.target.id l.source.id) then
        LinkPair.Second
      else LinkPair.None)).1,
    (if tc then
      initializeLinkGraphics resolve r
        (initializeLinkText resolve r st l
          (if (l.source.id != l.target.id) &&
              mapHas st.linksMap (generateKey l.target.id l.source.id) then
            LinkPair.Second
          else LinkPair.None)).2 l tl
    else
      (none,
        (initializeLinkText resolve r st l
          (if (l.source.id != l.target.id) &&
              mapHas st.linksMap (generateKey l.target.id l.source.id) then
            LinkPair.Second
          else LinkPair.None)).2)).1, ?_⟩
  have ht2 := initializeLinkText_linksMap_untracked resolve r st l
    (if (l.source.id != l.target.id) &&
        mapHas st.linksMap (generateKey l.target.id l.source.id) then
      LinkPair.Second
    else LinkPair.None) h
  unfold addLink
  dsimp only
  cases tc with
  | false =>
    simp only [Bool.false_eq_true, if_false]
    rw [ht2]
    (repeat' split) <;> rfl
  | true =>
    simp only [if_true]
    have hg2 := initializeLinkGraphics_linksMap_untracked resolve r
      (initializeLinkText resolve r st l
        (if (l.source.id != l.target.id) &&
            mapHas st.linksMap (generateKey l.target.id l.source.id) then
          LinkPair.Second
        else LinkPair.None)).2 l tl (by rw [ht2]; exact h)
    rw [hg2, ht2]
    (repeat' split) <;> rfl


/-- `mapSet` on the empty map. -/
theorem mapSet_nil (k : String) (v : α) : mapSet ([] : List (String × α)) k v = [(k, v)] := rfl

/-- `mapDelete` on the empty map. -/
theorem mapDelete_nil (k : String) : mapDelete ([] : List (String × α)) k = [] := rfl

/-- `mapSet` on an absent key appends. -/
theorem mapSet_of_not_has (m : List (String × α)) (k : String) (v : α)
    (h : mapHas m k = false) : mapSet m k v = m ++ [(k, v)] := by
  unfold mapSet
  rw [if_neg (by simp [h])]

/-- The map after one `addLink` of A→B on the fresh state, when the two
identity keys differ: a single `None` entry at key A-B. -/
theorem addLink_on_empty (A B : String) (resolve : Resolver) (r : Renderer)
    (tc tl : Bool) (hAB : A ≠ B) (hkey : generateKey A B ≠ generateKey B A) :
    ∃ t1 g1,
      (addLink resolve r initialState (mkLink A B) tc tl).linksMap =
        [(generateKey A B,
          { obsidianLink := mkLink A B, pairStatus := LinkPair.None, pixiText := t1,
            pixiGraphics := g1 })] := by
  have hbeq1 : ((generateKey A B) == generateKey B A) = false := by simp [hkey]
  obtain ⟨t1, g1, hm1⟩ := addLink_linksMap resolve r initialState (mkLink A B) tc tl
    (by rfl)
  refine ⟨t1, g1, ?_⟩
  rw [hm1]
  simp only [mkLink, mkEnd, initialState, mapHas_nil, Bool.and_false, Bool.false_eq_true,
    if_false, mapSet_nil, mapHas_cons, hbeq1, Bool.or_false, Bool.not_false, if_true]

/-! ### Claim C4 -/

/-- C4 (counterexample): for the node ids A = "a" and B = "a-a" (A ≠ B), the
keys of A→B and B→A collide (both are "a-a-a"), so adding A→B then B→A from
the empty state leaves a single tracked entry, with `pairStatus = First` —
not one `First` entry and one `Second` entry. -/
theorem C4_counterexample_colliding_pair :
    ("a" : String) ≠ "a-a" ∧
    (addLink noResolver r0 (addLink noResolver r0 initialState (mkLink "a" "a-a")
        false false) (mkLink "a-a" "a") false false).linksMap.map
      (fun p => (p.1, p.2.pairStatus)) = [("a-a-a", LinkPair.First)] := by
  exact ⟨by decide, by decide⟩

/-- C4 (amended): for any two node ids A ≠ B whose two identity keys are
distinct (`generateKey A B ≠ generateKey B A`; this holds in particular for
dash-free ids), adding A→B then B→A from the empty state yields exactly one
entry with `pairStatus = First` (at key A-B) and one with
`pairStatus = Second` (at key B-A); removing either identity leaves exactly
the other entry, with its `pairStatus` reset to `None`. -/
theorem C4_mirror_pair_symmetry (A B : String) (resolve : Resolver) (r : Renderer)
    (tc tl : Bool) (hAB : A ≠ B) (hkey : generateKey A B ≠ generateKey B A) :
    ((addLink resolve r (addLink resolve r initialState (mkLink A B) tc tl)
        (mkLink B A) tc tl).linksMap.map (fun p => (p.1, p.2.pairStatus)) =
      [(generateKey A B, LinkPair.First), (generateKey B A, LinkPair.Second)]) ∧
    ((removeLink r (addLink resolve r (addLink resolve r initialState (mkLink A B) tc tl)
        (mkLink B A) tc tl) (mkLink A B)).linksMap.map (fun p => (p.1, p.2.pairStatus)) =
      [(generateKey B A, LinkPair.None)]) ∧
    ((removeLink r (addLink resolve r (addLink resolve r initialState (mkLink A B) tc tl)
        (mkLink B A) tc tl) (mkLink B A)).linksMap.map (fun p => (p.1, p.2.pairStatus)) =
      [(generateKey A B, LinkPair.None)]) := by
  have hba : generateKey B A ≠ generateKey A B := Ne.symm hkey
  have hbeq1 : ((generateKey A B) == generateKey B A) = false := by simp [hkey]
  have hbeq2 : ((generateKey B A) == generateKey A B) = false := by simp [hba]
  have hne2 : (B != A) = true := bne_iff_ne.2 (Ne.symm hAB)
  obtain ⟨t1, g1, hm1⟩ := addLink_on_empty A B resolve r tc tl hAB hkey
  obtain ⟨t2, g2, hm2⟩ := addLink_linksMap resolve r
    (addLink resolve r initialState (mkLink A B) tc tl) (mkLink B A) tc tl
    (by
      show mapGet _ (generateKey B A) = none
      rw [hm1, mapGet_cons, if_neg hkey, mapGet_nil])
  simp only [hm1] at hm2
  simp only [mkLink, mkEnd, hne2, Bool.true_and, mapHas_cons, mapHas_nil,
    beq_self_eq_true, Bool.true_or, Bool.or_false, hbeq1, hbeq2, Bool.false_or,
    if_true, Bool.not_true, Bool.false_eq_true, if_false, mapGet_cons, mapGet_nil,
    List.nil_append, List.singleton_append, mapSet, List.map_cons, List.map_nil] at hm2
  have hd1 : ∀ X Y : GltLink,
      mapDelete [(generateKey A B, X), (generateKey B A, Y)] (generateKey A B) =
        [(generateKey B A, Y)] := by
    intro X Y
    rw [mapDelete_cons_of_eq rfl, mapDelete_cons_of_ne hba, mapDelete_nil]
  have hd2 : ∀ X Y : GltLink,
      mapDelete [(generateKey A B, X), (generateKey B A, Y)] (generateKey B A) =
        [(generateKey A B, X)] := by
    intro X Y
    rw [mapDelete_cons_of_ne hkey, mapDelete_cons_of_eq rfl, mapDelete_nil]
  refine ⟨?_, ?_, ?_⟩
  · simp only [mkLink, mkEnd, hm2, List.map_cons, List.map_nil]
  · rw [removeLink_linksMap]
    simp only [mkLink, mkEnd, hm2, hd1, hd2, hba, hkey,
      mapGet_cons, mapGet_nil, beq_self_eq_true, mapHas_cons, mapHas_nil,
      Bool.or_false, Bool.true_or, hbeq1, hbeq2, if_true, if_false, Bool.false_eq_true,
      ne_eq, mapSet, List.map_cons, List.map_nil, List.nil_append, List.singleton_append]
    simp
  · rw [removeLink_linksMap]
    simp only [mkLink, mkEnd, hm2, hd1, hd2, hba, hkey,
      mapGet_cons, mapGet_nil, beq_self_eq_true, mapHas_cons, mapHas_nil,
      Bool.or_false, Bool.true_or, hbeq1, hbeq2, if_true, if_false, Bool.false_eq_true,
      ne_eq, mapSet, List.map_cons, List.map_nil, List.nil_append, List.singleton_append]
    simp

/-- C4 witness: the amended mirror-pair property applied at A = "x",
B = "y". -/
theorem C4_mirror_pair_symmetry_witness :
    ((addLink noResolver r0 (addLink noResolver r0 initialState (mkLink "x" "y")
        false false) (mkLink "y" "x") false false).linksMap.map
      (fun p => (p.1, p.2.pairStatus)) =
      [(generateKey "x" "y", LinkPair.First), (generateKey "y" "x", LinkPair.Second)]) ∧
    ((removeLink r0 (addLink noResolver r0 (addLink noResolver r0 initialState
        (mkLink "x" "y") false false) (mkLink "y" "x") false false)
      (mkLink "x" "y")).linksMap.map (fun p => (p.1, p.2.pairStatus)) =
      [(generateKey "y" "x", LinkPair.None)]) ∧
    ((removeLink r0 (addLink noResolver r0 (addLink noResolver r0 initialState
        (mkLink "x" "y") false false) (mkLink "y" "x") false false)
      (mkLink "y" "x")).linksMap.map (fun p => (p.1, p.2.pairStatus)) =
      [(generateKey "x" "y", LinkPair.None)]) :=
  C4_mirror_pair_symmetry "x" "y" noResolver r0 false false (by decide) (by decide)

/-- Detaching for a missing entry does nothing. -/
theorem removeLinkDetach_none (st : LinkManagerState) :
    removeLinkDetach st none = st := rfl

/-- Releasing for a missing entry does nothing. -/
theorem removeLinkRelease_none (st : LinkManagerState) :
    removeLinkRelease st none = st := rfl

/-! ### Claim C6 -/

/-- C6 (counterexample): `removeLink` on an identity that is **not** tracked
is not always a no-op.  After adding (c, a-b) and (a-b, c) — a mirror pair
through the colliding key "a-b-c" — and removing (a, b-c) (whose key
"a-b-c" collides with the tracked (a-b, c) entry), the state tracks only
"c-a-b" with `pairStatus = First` while "a-b-c" is untracked; calling
`removeLink` for the absent identity (a-b, c) still resets that entry's
`pairStatus` to `None`. -/
theorem C6_counterexample_absent_removeEdge_mutates :
    (mapHas (removeLink r0 (addLink noResolver r0 (addLink noResolver r0 initialState
        (mkLink "c" "a-b") false false) (mkLink "a-b" "c") false false)
        (mkLink "a" "b-c")).linksMap (generateKey "a-b" "c") = false) ∧
    ((mapGet (removeLink r0 (addLink noResolver r0 (addLink noResolver r0 initialState
        (mkLink "c" "a-b") false false) (mkLink "a-b" "c") false false)
        (mkLink "a" "b-c")).linksMap "c-a-b").map GltLink.pairStatus =
      some LinkPair.First) ∧
    ((mapGet (removeLink r0 (removeLink r0 (addLink noResolver r0 (addLink noResolver r0
        initialState (mkLink "c" "a-b") false false) (mkLink "a-b" "c") false false)
        (mkLink "a" "b-c")) (mkLink "a-b" "c")).linksMap "c-a-b").map
      GltLink.pairStatus = some LinkPair.None) := by
  exact ⟨by decide, by decide, by decide⟩

/-- C6 (amended): `removeLink` on an identity not in the authoritative map
leaves the whole state unchanged provided the mirror key is untracked or its
entry's `pairStatus` is already `None` (in general it may reset the mirror
entry's `pairStatus`); and unconditionally, calling `removeLink` twice in a
row on the same identity equals calling it once — the second call changes
nothing, so legend state is mutated only once. -/
theorem C6_removeLink_noop_and_idempotent :
    (∀ (r : Renderer) (st : LinkManagerState) (e : ObsLink),
      mapHas st.linksMap (generateKey e.source.id e.target.id) = false →
      (∀ rl, mapGet st.linksMap (generateKey e.target.id e.source.id) = some rl →
        rl.pairStatus = LinkPair.None) →
      removeLink r st e = st) ∧
    (∀ (r : Renderer) (st : LinkManagerState) (e : ObsLink),
      removeLink r (removeLink r st e) e = removeLink r st e) := by
  have noop : ∀ (r : Renderer) (st : LinkManagerState) (e : ObsLink),
      mapHas st.linksMap (generateKey e.source.id e.target.id) = false →
      (∀ rl, mapGet st.linksMap (generateKey e.target.id e.source.id) = some rl →
        rl.pairStatus = LinkPair.None) →
      removeLink r st e = st := by
    intro r st e h1 h2
    have hget : mapGet st.linksMap (generateKey e.source.id e.target.id) = none :=
      (mapGet_eq_none_iff _ _).2 h1
    unfold removeLink
    dsimp only
    rw [hget, removeLinkDetach_none, removeLinkRelease_none,
      mapDelete_of_not_has _ _ h1]
    rcases hrev : mapGet st.linksMap (generateKey e.target.id e.source.id) with _ | rl
    · rfl
    · dsimp only
      rw [if_neg (by rw [h2 rl hrev]; simp)]
  refine ⟨noop, ?_⟩
  intro r st e
  apply noop
  · rw [removeLink_linksMap]
    dsimp only
    rcases hrev : mapGet (mapDelete st.linksMap (generateKey e.source.id e.target.id))
        (generateKey e.target.id e.source.id) with _ | rl
    · rw [mapHas_mapDelete]
      simp
    · have hne : generateKey e.target.id e.source.id ≠
          generateKey e.source.id e.target.id := by
        intro hk
        rw [hk, mapGet_mapDelete] at hrev
        simp at hrev
      dsimp only
      by_cases hs : rl.pairStatus ≠ LinkPair.None
      · rw [if_pos hs, mapHas_mapSet, mapHas_mapDelete]
        have hkr : ((generateKey e.source.id e.target.id) ==
            generateKey e.target.id e.source.id) = false := by
          rw [beq_eq_false_iff_ne]
          exact fun h => hne h.symm
        rw [hkr]
        simp
      · rw [if_neg hs, mapHas_mapDelete]
        simp
  · intro rl' hrl'
    rw [removeLink_linksMap] at hrl'
    dsimp only at hrl'
    rcases hrev : mapGet (mapDelete st.linksMap (generateKey e.source.id e.target.id))
        (generateKey e.target.id e.source.id) with _ | rl
    · rw [hrev] at hrl'
      dsimp only at hrl'
      rw [hrev] at hrl'
      simp at hrl'
    · rw [hrev] at hrl'
      dsimp only at hrl'
      by_cases hs : rl.pairStatus ≠ LinkPair.None
      · rw [if_pos hs, mapGet_mapSet, if_pos rfl] at hrl'
        cases hrl'
        rfl
      · rw [if_neg hs, hrev] at hrl'
        cases hrl'
        simpa using hs

/-- C6 witness: the no-op case on a concrete empty state, and idempotence on
a concrete one-edge state. -/
theorem C6_removeLink_noop_and_idempotent_witness :
    removeLink r0 initialState (mkLink "p" "q") = initialState ∧
    removeLink r0 (removeLink r0 (addLink noResolver r0 initialState (mkLink "p" "q")
        false false) (mkLink "p" "q")) (mkLink "p" "q") =
      removeLink r0 (addLink noResolver r0 initialState (mkLink "p" "q") false false)
        (mkLink "p" "q") :=
  ⟨C6_removeLink_noop_and_idempotent.1 r0 initialState (mkLink "p" "q") (by decide)
      (fun rl h => Option.noConfusion h),
   C6_removeLink_noop_and_idempotent.2 r0
     (addLink noResolver r0 initialState (mkLink "p" "q") false false) (mkLink "p" "q")⟩

/-- In the per-edge loop trace, every emitted `add` event is followed later
in the same trace by the `refreshText` event of the same key. -/
theorem tickTraceAux_add_before_refresh (resolve : Resolver) (r : Renderer)
    (tc tl tn : Bool) :
    ∀ (live : List ObsLink) (st : LinkManagerState) (k : String),
      SyncEv.add k ∈ tickTraceAux resolve r tc tl tn st live →
      [SyncEv.add k, SyncEv.refreshText k].Sublist
        (tickTraceAux resolve r tc tl tn st live) := by
  intro live
  induction live with
  | nil =>
    intro st k h
    simp [tickTraceAux] at h
  | cons l rest ih =>
    intro st k h
    simp only [tickTraceAux] at h ⊢
    rcases List.mem_append.1 h with hB | hT
    · by_cases hadd : (!mapHas st.linksMap (generateKey l.source.id l.target.id)) = true
      · rw [if_pos hadd] at hB ⊢
        have hk : k = generateKey l.source.id l.target.id := by
          rcases List.mem_append.1 hB with h1 | h2
          · rcases List.mem_append.1 h1 with h3 | h4
            · simpa using h3
            · simp at h4
          · rcases h2' : tc with _ | _ <;> rw [h2'] at h2 <;> simp at h2
        subst hk
        refine List.Sublist.trans ?_ (List.sublist_append_left _ _)
        cases tc with
        | false =>
          simp only [Bool.false_eq_true, if_false]
          exact List.Sublist.refl _
        | true =>
          simp only [if_true]
          exact List.sublist_append_left _ _
      · rw [if_neg hadd] at hB
        exfalso
        rcases List.mem_append.1 hB with h1 | h2
        · rcases List.mem_append.1 h1 with h3 | h4
          · simp at h3
          · simp at h4
        · rcases h2' : tc with _ | _ <;> rw [h2'] at h2 <;> simp at h2
    · exact List.Sublist.trans (ih _ k hT) (List.sublist_append_right _ _)

/-! ### Claim C7 -/

/-- C7 (counterexample): within one structural-sync tick, the structural
sync does **not** complete before the first refresh call.  With two live
untracked edges, the trace interleaves: the first edge's `updateLinkText`
refresh happens before the second edge's `addLink`. -/
theorem C7_sync_refresh_interleaved :
    (noAddAfterRefresh (tickEvents noResolver r0 false false true initialState
      [mkLink "p" "q", mkLink "q" "r"]) = false) ∧
    tickEvents noResolver r0 false false true initialState
        [mkLink "p" "q", mkLink "q" "r"] =
      [SyncEv.reconcile, SyncEv.add "p-q", SyncEv.refreshText "p-q",
       SyncEv.add "q-r", SyncEv.refreshText "q-r"] := by
  exact ⟨by decide, by decide⟩

/-- C7 (amended): within one structural-sync tick, the `removeLinks`
reconciliation is the first action of the tick, and every edge's `addLink`
call precedes that same edge's label refresh (so newly added edges are
immediately positioned); adds and refreshes of different edges are
interleaved per edge rather than phased. -/
theorem C7_reconcile_first_add_before_own_refresh (resolve : Resolver) (r : Renderer)
    (tc tl tn : Bool) (st : LinkManagerState) (live : List ObsLink) :
    (tickEvents resolve r tc tl tn st live).head? = some SyncEv.reconcile ∧
    ∀ k, SyncEv.add k ∈ tickEvents resolve r tc tl tn st live →
      [SyncEv.add k, SyncEv.refreshText k].Sublist
        (tickEvents resolve r tc tl tn st live) := by
  constructor
  · rfl
  · intro k hk
    unfold tickEvents at hk ⊢
    rcases List.mem_cons.1 hk with h1 | h2
    · exact absurd h1 (by simp)
    · exact List.Sublist.cons _ (tickTraceAux_add_before_refresh resolve r tc tl tn
        live _ k h2)

/-- C7 witness: the amended ordering property on a concrete one-edge tick. -/
theorem C7_witness :
    (tickEvents noResolver r0 false false true initialState
      [mkLink "p" "q"]).head? = some SyncEv.reconcile ∧
    ∀ k, SyncEv.add k ∈ tickEvents noResolver r0 false false true initialState
        [mkLink "p" "q"] →
      [SyncEv.add k, SyncEv.refreshText k].Sublist
        (tickEvents noResolver r0 false false true initialState [mkLink "p" "q"]) :=
  C7_reconcile_first_add_before_own_refresh noResolver r0 false false true initialState
    [mkLink "p" "q"]


/-- C8 counterexample: with labels visible and both endpoint opacities
available (source 0, target 1), `updateLinkText` sets the label's alpha to
the 0.9 default rather than to `max 0 1 = 1`: the code treats an endpoint
opacity of 0 as "unavailable" via JS truthiness, while the spec's default
applies only when an opacity is genuinely unavailable. -/
theorem C8_counterexample_zero_alpha_gets_default :
    ((mapGet (updateLinkText r0
        (addLink (constResolver "rel") r0 initialState
          ({ source := mkEnd "u" (some 0), target := mkEnd "v" (some 1) }) false false)
        ({ source := mkEnd "u" (some 0), target := mkEnd "v" (some 1) }) true).linksMap
        (generateKey "u" "v")).bind
      (fun e => e.pixiText.map PixiText.alpha)) = some (9/10) ∧
    (9/10 : ℚ) ≠ max 0 1 ∧
    (mkEnd "u" (some (0:ℚ))).textAlpha ≠ none ∧
    (mkEnd "v" (some (1:ℚ))).textAlpha ≠ none := by
  refine ⟨rfl, by norm_num, by decide, by decide⟩

/-- C8 (amended): for every tracked edge with an attached, staged label,
`updateLinkText` keeps the label present (same element id, stage unchanged);
with `tagNames = false` it forces the label's alpha to 0; with
`tagNames = true` it sets alpha to the greater of the two endpoint label
opacities when both are available and nonzero, and to the fixed default 0.9
whenever either endpoint opacity is unavailable or equal to 0. -/
theorem C8_label_visibility_policy (r : Renderer) (st : LinkManagerState)
    (link : ObsLink) (tagNames : Bool) (e : GltLink) (t : PixiText)
    (he : mapGet st.linksMap (generateKey link.source.id link.target.id) = some e)
    (ht : e.pixiText = some t)
    (hs : st.stage.contains t.elemId = true) :
    ∃ t2 : PixiText,
      (mapGet (updateLinkText r st link tagNames).linksMap
        (generateKey link.source.id link.target.id)).bind GltLink.pixiText = some t2 ∧
      t2.elemId = t.elemId ∧
      (updateLinkText r st link tagNames).stage = st.stage ∧
      (tagNames = false → t2.alpha = 0) ∧
      (tagNames = true →
        ((link.source.textAlpha = none ∨ link.target.textAlpha = none ∨
            link.source.textAlpha = some 0 ∨ link.target.textAlpha = some 0) →
          t2.alpha = 9/10) ∧
        (∀ sa ta, link.source.textAlpha = some sa → link.target.textAlpha = some ta →
          sa ≠ 0 → ta ≠ 0 → t2.alpha = max sa ta)) := by
  have hmain : ∀ x : LinkManagerState, x = updateLinkText r st link tagNames →
      ∃ t2 : PixiText,
        (mapGet x.linksMap (generateKey link.source.id link.target.id)).bind
          GltLink.pixiText = some t2 ∧
        t2.elemId = t.elemId ∧
        x.stage = st.stage ∧
        (tagNames = false → t2.alpha = 0) ∧
        (tagNames = true →
          ((link.source.textAlpha = none ∨ link.target.textAlpha = none ∨
              link.source.textAlpha = some 0 ∨ link.target.textAlpha = some 0) →
            t2.alpha = 9/10) ∧
          (∀ sa ta, link.source.textAlpha = some sa → link.target.textAlpha = some ta →
            sa ≠ 0 → ta ≠ 0 → t2.alpha = max sa ta)) := by
    intro x hx
    unfold updateLinkText at hx
    dsimp only at hx
    rw [he] at hx
    dsimp only at hx
    rw [ht] at hx
    dsimp only at hx
    rw [if_pos hs] at hx
    subst hx
    simp only [mapGet_mapSet_self, Option.some_bind]
    refine ⟨_, rfl, ?_, ?_, ?_, ?_⟩
    · trivial
    · trivial
    · intro hn
      subst hn
      rfl
    · intro hy
      subst hy
      constructor
      · intro hdef
        dsimp only
        rcases hsa : link.source.textAlpha with _ | sa <;>
          rcases hta : link.target.textAlpha with _ | ta
        · rfl
        · rfl
        · rfl
        · rw [hsa, hta] at hdef
          have hzz : ta = 0 ∨ sa = 0 := by
            rcases hdef with h | h | h | h
            · exact absurd h (by simp)
            · exact absurd h (by simp)
            · right; cases Option.some.inj h; rfl
            · left; cases Option.some.inj h; rfl
          dsimp only
          rw [if_pos hzz]
          rfl
      · intro sa ta hsa hta hsane htane
        rw [hsa, hta]
        dsimp only
        rw [if_pos rfl, if_neg (fun hc => hc.elim htane hsane)]
  exact hmain _ rfl

/-- C8 witness: the amended visibility policy applied to the concrete state
`st8`, which tracks the edge u -> v with the staged label `t8`. -/
theorem C8_label_visibility_policy_witness :
    mapGet st8.linksMap (generateKey (mkLink "u" "v").source.id
      (mkLink "u" "v").target.id) = some e8 ∧
    e8.pixiText = some t8 ∧
    st8.stage.contains t8.elemId = true ∧
    (∃ t2 : PixiText,
      (mapGet (updateLinkText r0 st8 (mkLink "u" "v") true).linksMap
        (generateKey (mkLink "u" "v").source.id (mkLink "u" "v").target.id)).bind
        GltLink.pixiText = some t2 ∧
      t2.elemId = t8.elemId ∧
      (updateLinkText r0 st8 (mkLink "u" "v") true).stage = st8.stage ∧
      (true = false → t2.alpha = 0) ∧
      (true = true →
        (((mkLink "u" "v").source.textAlpha = none ∨
            (mkLink "u" "v").target.textAlpha = none ∨
            (mkLink "u" "v").source.textAlpha = some 0 ∨
            (mkLink "u" "v").target.textAlpha = some 0) →
          t2.alpha = 9/10) ∧
        (∀ sa ta, (mkLink "u" "v").source.textAlpha = some sa →
          (mkLink "u" "v").target.textAlpha = some ta →
          sa ≠ 0 → ta ≠ 0 → t2.alpha = max sa ta))) :=
  ⟨rfl, rfl, rfl,
    C8_label_visibility_policy r0 st8 (mkLink "u" "v") true e8 t8 rfl rfl rfl⟩


theorem acquiredSt_tagColors_get (st : LinkManagerState) (L : String) (tl : Bool)
    (j : ℤ) :
    mapGet (acquiredSt st L tl j).tagColors L =
      some ({ freshRow st tl with nUsing := j }) := by
  unfold acquiredSt
  exact mapGet_mapSet_self _ _ _

/-- `n + 1` acquires of a fresh label leave its row with `nUsing = n` in an
otherwise once-advanced allocator state. -/
theorem acquireN_fresh (st : LinkManagerState) (L : String) (tl : Bool)
    (hfresh : mapHas st.tagColors L = false) :
    ∀ n : ℕ, acquireN L tl st (n + 1) = acquiredSt st L tl n := by
  intro n
  induction n with
  | zero =>
    show (acquireTagColor st L tl).2 = _
    rw [acquireTagColor_new st L tl hfresh]
    rfl
  | succ n ih =>
    show (acquireTagColor (acquireN L tl st (n + 1)) L tl).2 = _
    rw [ih, acquireTagColor_existing _ _ _ _ (acquiredSt_tagColors_get st L tl n)]
    unfold acquiredSt
    dsimp only
    rw [mapSet_mapSet_self]
    have hc : ((n : ℤ) + 1) = ((n + 1 : ℕ) : ℤ) := by push_cast; ring
    rw [hc]

/-- Releasing `k` times while at least one reference remains just counts the
row's `nUsing` down. -/
theorem releaseN_dec (st : LinkManagerState) (L : String) (tl : Bool) :
    ∀ (k : ℕ) (j : ℤ), 1 ≤ j →
      releaseN L (acquiredSt st L tl (j + k)) k = acquiredSt st L tl j := by
  intro k
  induction k with
  | zero =>
    intro j hj
    show acquiredSt st L tl (j + ((0 : ℕ) : ℤ)) = acquiredSt st L tl j
    norm_num
  | succ k ih =>
    intro j hj
    show releaseTagColor (releaseN L (acquiredSt st L tl (j + ((k + 1 : ℕ) : ℤ))) k) L = _
    have hshift : (j + ((k + 1 : ℕ) : ℤ)) = (j + 1) + (k : ℤ) := by push_cast; ring
    rw [hshift, ih (j + 1) (by omega)]
    rw [releaseTagColor_dec _ _ _ (acquiredSt_tagColors_get st L tl (j + 1))
      (by dsimp only; omega)]
    unfold acquiredSt
    dsimp only
    rw [mapSet_mapSet_self]
    have hc : ((j : ℤ) + 1 - 1) = j := by ring
    rw [hc]

/-- The reclaiming release undoes the fresh acquire on the legend map, the
palette cursor and the vertical offset. -/
theorem releaseTagColor_reclaim_restores (st : LinkManagerState) (L : String)
    (tl : Bool) (j : ℤ) (hj : j - 1 < 1)
    (hfresh : mapHas st.tagColors L = false)
    (hcur : st.currentTagColorIndex < categoricalColors.length) :
    (releaseTagColor (acquiredSt st L tl j) L).tagColors = st.tagColors ∧
    (releaseTagColor (acquiredSt st L tl j) L).currentTagColorIndex =
      st.currentTagColorIndex ∧
    (releaseTagColor (acquiredSt st L tl j) L).yOffset = st.yOffset := by
  rw [releaseTagColor_reclaim _ _ _ (acquiredSt_tagColors_get st L tl j)
    (by dsimp only; omega)]
  unfold acquiredSt
  dsimp only
  refine ⟨?_, ?_, ?_⟩
  · rw [mapSet_mapSet_self, mapDelete_mapSet_self _ _ _ hfresh]
  · rcases Nat.lt_or_ge (st.currentTagColorIndex + 1) categoricalColors.length with h | h
    · rw [Nat.mod_eq_of_lt h, if_neg (by omega)]
      omega
    · have heq : st.currentTagColorIndex + 1 = categoricalColors.length := by omega
      rw [heq, Nat.mod_self, if_pos rfl]
      omega
  · ring


/-- C3: for every label and every N >= 1, acquiring a fresh label N times and
then releasing it N times (LIFO, no interleaved allocator activity) leaves no
Legend Entry for the label — indeed restores the legend map exactly — and
restores the Palette Cursor and the vertical legend offset to their
pre-acquisition values (given the cursor is in palette range, as it is in
every reachable state). -/
theorem C3_acquire_release_roundtrip (L : String) (tl : Bool)
    (st : LinkManagerState) (N : ℕ) (hN : 1 ≤ N)
    (hfresh : mapHas st.tagColors L = false)
    (hcur : st.currentTagColorIndex < categoricalColors.length) :
    mapHas (releaseN L (acquireN L tl st N) N).tagColors L = false ∧
    (releaseN L (acquireN L tl st N) N).tagColors = st.tagColors ∧
    (releaseN L (acquireN L tl st N) N).currentTagColorIndex =
      st.currentTagColorIndex ∧
    (releaseN L (acquireN L tl st N) N).yOffset = st.yOffset := by
  obtain ⟨n, rfl⟩ : ∃ n, N = n + 1 := ⟨N - 1, by omega⟩
  rw [acquireN_fresh st L tl hfresh n]
  rcases n with _ | m
  · have hrec := releaseTagColor_reclaim_restores st L tl 0 (by norm_num) hfresh hcur
    have hfin : releaseN L (acquiredSt st L tl ((0 : ℕ) : ℤ)) (0 + 1) =
        releaseTagColor (acquiredSt st L tl 0) L := by
      show releaseTagColor (acquiredSt st L tl ((0 : ℕ) : ℤ)) L = _
      rw [Nat.cast_zero]
    rw [hfin]
    exact ⟨by rw [hrec.1]; exact hfresh, hrec⟩
  · have hrec := releaseTagColor_reclaim_restores st L tl 1 (by norm_num) hfresh hcur
    have hcast : (((m + 1 : ℕ)) : ℤ) = 1 + (m : ℤ) := by push_cast; ring
    have hm : releaseN L (acquiredSt st L tl ((m + 1 : ℕ) : ℤ)) m =
        acquiredSt st L tl 1 := by
      rw [hcast]
      exact releaseN_dec st L tl m 1 le_rfl
    have hfin : releaseN L (acquiredSt st L tl ((m + 1 : ℕ) : ℤ)) (m + 1 + 1) =
        releaseTagColor (releaseTagColor (acquiredSt st L tl 1) L) L := by
      show releaseTagColor (releaseTagColor
        (releaseN L (acquiredSt st L tl ((m + 1 : ℕ) : ℤ)) m) L) L = _
      rw [hm]
    have habs : releaseTagColor (releaseTagColor (acquiredSt st L tl 1) L) L =
        releaseTagColor (acquiredSt st L tl 1) L :=
      releaseTagColor_absent _ _ (by rw [hrec.1]; exact hfresh)
    rw [hfin, habs]
    exact ⟨by rw [hrec.1]; exact hfresh, hrec⟩

/-- C3 witness: the round trip at N = 3 for label "parent" from the empty
state. -/
theorem C3_acquire_release_roundtrip_witness :
    1 ≤ 3 ∧ mapHas initialState.tagColors "parent" = false ∧
    initialState.currentTagColorIndex < categoricalColors.length ∧
    (mapHas (releaseN "parent" (acquireN "parent" false initialState 3) 3).tagColors
      "parent" = false ∧
     (releaseN "parent" (acquireN "parent" false initialState 3) 3).tagColors =
       initialState.tagColors ∧
     (releaseN "parent"
       (acquireN "parent" false initialState 3) 3).currentTagColorIndex =
       initialState.currentTagColorIndex ∧
     (releaseN "parent" (acquireN "parent" false initialState 3) 3).yOffset =
       initialState.yOffset) :=
  ⟨by decide, by decide, by decide,
    C3_acquire_release_roundtrip "parent" false initialState 3 (by decide) (by decide)
      (by decide)⟩


theorem not_mem_of_contains_false {a : Char} {xs : List Char}
    (h : xs.contains a = false) : a ∉ xs := by
  intro hm
  simp only [List.contains, List.elem_eq_mem, decide_eq_false_iff_not] at h
  exact h hm

theorem append_dash_inj : ∀ (xs : List Char), ∀ (xs' ys ys' : List Char),
    '-' ∉ xs → '-' ∉ xs' → xs ++ '-' :: ys = xs' ++ '-' :: ys' →
    xs = xs' ∧ ys = ys' := by
  intro xs
  induction xs with
  | nil =>
    intro xs' ys ys' h1 h2 h
    cases xs' with
    | nil =>
      simp only [List.nil_append, List.cons.injEq] at h
      exact ⟨rfl, h.2⟩
    | cons z zs =>
      simp only [List.nil_append, List.cons_append, List.cons.injEq] at h
      exact absurd (h.1 ▸ List.mem_cons_self z zs) h2
  | cons x xs ih =>
    intro xs' ys ys' h1 h2 h
    cases xs' with
    | nil =>
      simp only [List.cons_append, List.nil_append, List.cons.injEq] at h
      exact absurd (h.1 ▸ List.mem_cons_self x xs) h1
    | cons z zs =>
      simp only [List.cons_append, List.cons.injEq] at h
      have h1x : '-' ∉ xs := fun hm => h1 (List.mem_cons_of_mem _ hm)
      have h2z : '-' ∉ zs := fun hm => h2 (List.mem_cons_of_mem _ hm)
      obtain ⟨he, hy⟩ := ih zs ys ys' h1x h2z h.2
      exact ⟨by rw [h.1, he], hy⟩

/-- On dash-free left components, `generateKey` is injective in both
arguments. -/
theorem generateKey_inj {a b c d : String} (ha : dashFree a = true)
    (hc : dashFree c = true) (h : generateKey a b = generateKey c d) :
    a = c ∧ b = d := by
  have hd : a.data ++ '-' :: b.data = c.data ++ '-' :: d.data := by
    have hh := congrArg String.data h
    simpa [generateKey, String.data_append] using hh
  have ha' : '-' ∉ a.data := by
    unfold dashFree at ha
    exact not_mem_of_contains_false (by simpa using ha)
  have hc' : '-' ∉ c.data := by
    unfold dashFree at hc
    exact not_mem_of_contains_false (by simpa using hc)
  obtain ⟨h1, h2⟩ := append_dash_inj a.data c.data b.data d.data ha' hc' hd
  exact ⟨String.ext h1, String.ext h2⟩

theorem not_mem_keys_of_not_has {m : List (String × α)} {k : String}
    (h : mapHas m k = false) : k ∉ m.map Prod.fst := by
  intro hm
  obtain ⟨p, hp, hk⟩ := List.mem_map.1 hm
  rw [← hk, mapHas_of_mem hp] at h
  exact absurd h (by simp)

theorem keysNodup_mapSet {m : List (String × α)} (k : String) (v : α)
    (h : keysNodup m) : keysNodup (mapSet m k v) := by
  unfold keysNodup mapSet
  by_cases hh : mapHas m k = true
  · rw [if_pos hh]
    have hkeys : (m.map (fun p => if p.1 == k then (k, v) else p)).map Prod.fst =
        m.map Prod.fst := by
      rw [List.map_map]
      apply List.map_congr_left
      intro p hp
      by_cases hp1 : p.1 = k <;> simp [hp1]
    rw [hkeys]
    exact h
  · rw [if_neg hh, List.map_append]
    refine List.Nodup.append h (List.nodup_singleton k) ?_
    intro a haa hab
    simp only [List.map_cons, List.map_nil, List.mem_singleton] at hab
    subst hab
    exact not_mem_keys_of_not_has (by simpa using hh) haa

theorem keysNodup_mapDelete {m : List (String × α)} (k : String)
    (h : keysNodup m) : keysNodup (mapDelete m k) := by
  unfold keysNodup mapDelete
  exact List.Nodup.sublist (List.Sublist.map Prod.fst (List.filter_sublist m)) h

/-- With unique keys, membership determines the `mapGet` result. -/
theorem mapGet_eq_of_mem {m : List (String × α)} {p : String × α}
    (hnd : keysNodup m) (hp : p ∈ m) : mapGet m p.1 = some p.2 := by
  induction m with
  | nil => simp at hp
  | cons q m ih =>
    unfold keysNodup at hnd
    rw [List.map_cons, List.nodup_cons] at hnd
    rw [mapGet_cons]
    rcases List.mem_cons.1 hp with rfl | hm
    · rw [if_pos rfl]
    · have hq : q.1 ≠ p.1 := by
        intro he
        exact hnd.1 (he ▸ List.mem_map.2 ⟨p, hm, rfl⟩)
      rw [if_neg hq]
      exact ih hnd.2 hm


/-- `updateLinkText` either leaves the authoritative map alone or replaces
the entry at the link's own key. -/
theorem updateLinkText_linksMap_cases (r : Renderer) (st : LinkManagerState)
    (l : ObsLink) (tn : Bool) :
    (updateLinkText r st l tn).linksMap = st.linksMap ∨
    ∃ v, (updateLinkText r st l tn).linksMap =
      mapSet st.linksMap (generateKey l.source.id l.target.id) v := by
  unfold updateLinkText
  dsimp only
  rcases hm : mapGet st.linksMap (generateKey l.source.id l.target.id) with _ | e
  · left; rfl
  · dsimp only
    rcases ht : e.pixiText with _ | t
    · left; rfl
    · dsimp only
      by_cases hs : st.stage.contains t.elemId = true
      · rw [if_pos hs]
        right
        exact ⟨_, rfl⟩
      · rw [if_neg hs]
        left
        rfl

/-- `updateLinkGraphics` either leaves the authoritative map alone or
replaces the entry at the link's own key. -/
theorem updateLinkGraphics_linksMap_cases (r : Renderer) (st : LinkManagerState)
    (l : ObsLink) :
    (updateLinkGraphics r st l).linksMap = st.linksMap ∨
    ∃ v, (updateLinkGraphics r st l).linksMap =
      mapSet st.linksMap (generateKey l.source.id l.target.id) v := by
  unfold updateLinkGraphics
  dsimp only
  rcases hm : mapGet st.linksMap (generateKey l.source.id l.target.id) with _ | e
  · left; rfl
  · dsimp only
    rcases hg : e.pixiGraphics with _ | g
    · left; rfl
    · dsimp only
      by_cases hs : st.stage.contains g.elemId = true
      · rw [if_pos hs]
        right
        exact ⟨_, rfl⟩
      · rw [if_neg hs]
        left
        rfl

/-- Setting a key absorbs any earlier map change confined to that key. -/
theorem mapSet_absorb {m m' : List (String × α)} {k : String}
    (h : m' = m ∨ ∃ v, m' = mapSet m k v) (w : α) :
    mapSet m' k w = mapSet m k w := by
  rcases h with rfl | ⟨v, rfl⟩
  · rfl
  · exact mapSet_mapSet_self m k v w

/-- `initializeLinkText` either leaves the authoritative map alone or
replaces the entry at the link's own key (the embedded pre-attachment
`updateLinkText` call). -/
theorem initializeLinkText_linksMap_cases (resolve : Resolver) (r : Renderer)
    (st : LinkManagerState) (l : ObsLink) (ps : LinkPair) :
    (initializeLinkText resolve r st l ps).2.linksMap = st.linksMap ∨
    ∃ v, (initializeLinkText resolve r st l ps).2.linksMap =
      mapSet st.linksMap (generateKey l.source.id l.target.id) v := by
  rcases hres : resolve l.source.id l.target.id with _ | s0
  · rw [initializeLinkText_none resolve r st l ps hres]
    left
    rfl
  · rw [initializeLinkText_some resolve r st l ps s0 hres]
    dsimp only
    exact updateLinkText_linksMap_cases r ({ st with nextElemId := st.nextElemId + 1 }) l false

/-- `initializeLinkGraphics` either leaves the authoritative map alone or
replaces the entry at the link's own key (the embedded `updateLinkGraphics`
call). -/
theorem initializeLinkGraphics_linksMap_cases (resolve : Resolver) (r : Renderer)
    (st : LinkManagerState) (l : ObsLink) (tl : Bool) :
    (initializeLinkGraphics resolve r st l tl).2.linksMap = st.linksMap ∨
    ∃ v, (initializeLinkGraphics resolve r st l tl).2.linksMap =
      mapSet st.linksMap (generateKey l.source.id l.target.id) v := by
  rcases hres : resolve l.source.id l.target.id with _ | s0
  · rw [initializeLinkGraphics_none resolve r st l tl hres]
    left
    rfl
  · by_cases hself : l.source.id = l.target.id
    · rw [initializeLinkGraphics_self resolve r st l tl s0 hres hself]
      dsimp only
      exact updateLinkGraphics_linksMap_cases r
        ({ st with nextElemId := st.nextElemId + 1, stage := st.stage ++ [st.nextElemId] }) l
    · rw [initializeLinkGraphics_nonself resolve r st l tl s0 hres hself]
      dsimp only
      have hq : (acquireTagColor st s0 tl).2.linksMap = st.linksMap :=
        (acquireTagColor_frame st s0 tl).1
      rcases updateLinkGraphics_linksMap_cases r
          ({ (acquireTagColor st s0 tl).2 with
              nextElemId := (acquireTagColor st s0 tl).2.nextElemId + 1
              stage := (acquireTagColor st s0 tl).2.stage ++
                [(acquireTagColor st s0 tl).2.nextElemId] }) l with hcase | ⟨v, hcase⟩
      · left
        rw [hcase]
        exact hq
      · right
        refine ⟨v, ?_⟩
        rw [hcase]
        show mapSet (acquireTagColor st s0 tl).2.linksMap _ v = _
        rw [hq]


/-- The full effect of `addLink` on the authoritative map, for any prior
state (a tracked key's entry is simply overwritten: the embedded refresh
calls only touch the entry at the link's own key, which the final store
replaces). -/
theorem addLink_linksMap_any (resolve : Resolver) (r : Renderer)
    (st : LinkManagerState) (l : ObsLink) (tc tl : Bool) :
    ∃ tOpt gOpt,
      (addLink resolve r st l tc tl).linksMap =
        (let ps :=
          if (l.source.id != l.target.id) &&
              mapHas st.linksMap (generateKey l.target.id l.source.id) then
            LinkPair.Second
          else LinkPair.None
         let m1 := mapSet st.linksMap (generateKey l.source.id l.target.id)
           { obsidianLink := l, pairStatus := ps, pixiText := tOpt, pixiGraphics := gOpt }
         if !((l.source.id != l.target.id) &&
             mapHas m1 (generateKey l.target.id l.source.id)) then m1
         else
           match mapGet m1 (generateKey l.target.id l.source.id) with
           | some rl =>
             mapSet m1 (generateKey l.target.id l.source.id)
               ({ rl with pairStatus := LinkPair.First })
           | none => m1) := by
  refine ⟨(initializeLinkText resolve r st l
      (if (l.source.id != l.target.id) &&
          mapHas st.linksMap (generateKey l.target.id l.source.id) then
        LinkPair.Second
      else LinkPair.None)).1,
    (if tc then
      initializeLinkGraphics resolve r
        (initializeLinkText resolve r st l
          (if (l.source.id != l.target.id) &&
              mapHas st.linksMap (generateKey l.target.id l.source.id) then
            LinkPair.Second
          else LinkPair.None)).2 l tl
    else
      (none,
        (initializeLinkText resolve r st l
          (if (l.source.id != l.target.id) &&
              mapHas st.linksMap (generateKey l.target.id l.source.id) then
            LinkPair.Second
          else LinkPair.None)).2)).1, ?_⟩
  have h1 := initializeLinkText_linksMap_cases resolve r st l
    (if (l.source.id != l.target.id) &&
        mapHas st.linksMap (generateKey l.target.id l.source.id) then
      LinkPair.Second
    else LinkPair.None)
  unfold addLink
  dsimp only
  cases tc with
  | false =>
    simp only [Bool.false_eq_true, if_false]
    rw [mapSet_absorb h1]
    (repeat' split) <;> rfl
  | true =>
    simp only [if_true]
    have h2 := initializeLinkGraphics_linksMap_cases resolve r
      (initializeLinkText resolve r st l
        (if (l.source.id != l.target.id) &&
            mapHas st.linksMap (generateKey l.target.id l.source.id) then
          LinkPair.Second
        else LinkPair.None)).2 l tl
    rw [mapSet_absorb h2, mapSet_absorb h1]
    (repeat' split) <;> rfl


/-- Storing a fresh `None`-status entry at its own key preserves the core
invariant. -/
theorem coreInv_mapSet_none (m : List (String × GltLink)) (l : ObsLink)
    (tOpt : Option PixiText) (gOpt : Option PixiGraphics)
    (hs : dashFree l.source.id = true) (ht : dashFree l.target.id = true)
    (hinv : coreInv m) :
    coreInv (mapSet m (generateKey l.source.id l.target.id)
      { obsidianLink := l, pairStatus := LinkPair.None, pixiText := tOpt,
        pixiGraphics := gOpt }) := by
  obtain ⟨hnd, hkc, hdf, hmt⟩ := hinv
  refine ⟨keysNodup_mapSet _ _ hnd, ?_, ?_, ?_⟩
  · intro p hp
    rcases mem_mapSet hp with rfl | ⟨hpm, h0⟩
    · rfl
    · exact hkc p hpm
  · intro p hp
    rcases mem_mapSet hp with rfl | ⟨hpm, h0⟩
    · exact ⟨hs, ht⟩
    · exact hdf p hpm
  · intro p hp hne
    rcases mem_mapSet hp with rfl | ⟨hpm, hpk⟩
    · exact absurd rfl hne
    · rw [mapHas_mapSet, hmt p hpm hne]
      simp

/-- The `addLink` map effect preserves the core invariant. -/
theorem coreInv_addEffect (m : List (String × GltLink)) (l : ObsLink)
    (tOpt : Option PixiText) (gOpt : Option PixiGraphics)
    (hs : dashFree l.source.id = true) (ht : dashFree l.target.id = true)
    (hinv : coreInv m) :
    coreInv
      (let ps :=
        if (l.source.id != l.target.id) &&
            mapHas m (generateKey l.target.id l.source.id) then
          LinkPair.Second
        else LinkPair.None
       let m1 := mapSet m (generateKey l.source.id l.target.id)
         { obsidianLink := l, pairStatus := ps, pixiText := tOpt, pixiGraphics := gOpt }
       if !((l.source.id != l.target.id) &&
           mapHas m1 (generateKey l.target.id l.source.id)) then m1
       else
         match mapGet m1 (generateKey l.target.id l.source.id) with
         | some rl =>
           mapSet m1 (generateKey l.target.id l.source.id)
             ({ rl with pairStatus := LinkPair.First })
         | none => m1) := by
  obtain ⟨hnd, hkc, hdf, hmt⟩ := hinv
  dsimp only
  by_cases hself : l.source.id = l.target.id
  · have hbne : (l.source.id != l.target.id) = false := by simp [hself]
    simp only [hbne, Bool.false_and, Bool.not_false, if_true, Bool.false_eq_true, if_false]
    exact coreInv_mapSet_none m l tOpt gOpt hs ht ⟨hnd, hkc, hdf, hmt⟩
  · have hbne : (l.source.id != l.target.id) = true := by simp [hself]
    have hkeyne : generateKey l.target.id l.source.id ≠
        generateKey l.source.id l.target.id := by
      intro he
      exact hself ((generateKey_inj ht hs he).1).symm
    have hbeqf : (generateKey l.target.id l.source.id ==
        generateKey l.source.id l.target.id) = false := by
      simp [hkeyne]
    simp only [hbne, Bool.true_and, mapHas_mapSet, hbeqf, Bool.false_or]
    by_cases hrev : mapHas m (generateKey l.target.id l.source.id) = true
    · simp only [hrev, if_true, Bool.not_true, Bool.false_eq_true, if_false]
      rcases hget : mapGet m (generateKey l.target.id l.source.id) with _ | rl
      · rw [(mapGet_eq_none_iff _ _).1 hget] at hrev
        exact absurd hrev (by simp)
      · have hrlmem := mapGet_mem hget
        have hrlkc := hkc _ hrlmem
        have hrldf := hdf _ hrlmem
        obtain ⟨hts, hst⟩ := generateKey_inj ht hrldf.1 hrlkc
        have h2 : mapGet (mapSet m (generateKey l.source.id l.target.id)
            { obsidianLink := l, pairStatus := LinkPair.Second, pixiText := tOpt,
              pixiGraphics := gOpt }) (generateKey l.target.id l.source.id) = some rl := by
          rw [mapGet_mapSet, if_neg hkeyne, hget]
        rw [h2]
        dsimp only
        refine ⟨keysNodup_mapSet _ _ (keysNodup_mapSet _ _ hnd), ?_, ?_, ?_⟩
        · intro p hp
          rcases mem_mapSet hp with rfl | ⟨hp1, hprev⟩
          · exact hrlkc
          · rcases mem_mapSet hp1 with rfl | ⟨hpm, hpkey⟩
            · rfl
            · exact hkc p hpm
        · intro p hp
          rcases mem_mapSet hp with rfl | ⟨hp1, hprev⟩
          · exact hrldf
          · rcases mem_mapSet hp1 with rfl | ⟨hpm, hpkey⟩
            · exact ⟨hs, ht⟩
            · exact hdf p hpm
        · intro p hp hne
          simp only [mapHas_mapSet]
          rcases mem_mapSet hp with rfl | ⟨hp1, hprev⟩
          · have hm2 : generateKey rl.obsidianLink.target.id rl.obsidianLink.source.id =
                generateKey l.source.id l.target.id := by
              rw [← hts, ← hst]
            dsimp only
            rw [hm2]
            simp
          · rcases mem_mapSet hp1 with rfl | ⟨hpm, hpkey⟩
            · simp
            · rw [hmt p hpm hne]
              simp
    · have hrevf : mapHas m (generateKey l.target.id l.source.id) = false := by
        simpa using hrev
      simp only [hrevf, Bool.false_eq_true, if_false, Bool.or_false, Bool.not_false, if_true]
      exact coreInv_mapSet_none m l tOpt gOpt hs ht ⟨hnd, hkc, hdf, hmt⟩


/-- The `removeLink` map effect preserves the core invariant. -/
theorem coreInv_removeEffect (m : List (String × GltLink)) (l : ObsLink)
    (hs : dashFree l.source.id = true) (ht : dashFree l.target.id = true)
    (hinv : coreInv m) :
    coreInv
      (let m1 := mapDelete m (generateKey l.source.id l.target.id)
       match mapGet m1 (generateKey l.target.id l.source.id) with
       | some rl =>
         if rl.pairStatus ≠ LinkPair.None then
           mapSet m1 (generateKey l.target.id l.source.id)
             ({ rl with pairStatus := LinkPair.None })
         else m1
       | none => m1) := by
  obtain ⟨hnd, hkc, hdf, hmt⟩ := hinv
  dsimp only
  have hnd1 : keysNodup (mapDelete m (generateKey l.source.id l.target.id)) :=
    keysNodup_mapDelete _ hnd
  have hkc1 : keyCoherent (mapDelete m (generateKey l.source.id l.target.id)) := by
    intro p hp
    exact hkc p (mem_mapDelete.1 hp).1
  have hdf1 : dashFreeMap (mapDelete m (generateKey l.source.id l.target.id)) := by
    intro p hp
    exact hdf p (mem_mapDelete.1 hp).1
  have hmirror_rev : ∀ p ∈ mapDelete m (generateKey l.source.id l.target.id),
      generateKey p.2.obsidianLink.target.id p.2.obsidianLink.source.id =
        generateKey l.source.id l.target.id →
      p.1 = generateKey l.target.id l.source.id := by
    intro p hp hmk
    obtain ⟨hts, hst⟩ := generateKey_inj (hdf1 p hp).2 hs hmk
    rw [hkc1 p hp, hst, hts]
  rcases hget : mapGet (mapDelete m (generateKey l.source.id l.target.id))
      (generateKey l.target.id l.source.id) with _ | rl
  · refine ⟨hnd1, hkc1, hdf1, ?_⟩
    intro p hp hne
    rcases hmk : generateKey p.2.obsidianLink.target.id p.2.obsidianLink.source.id ==
        generateKey l.source.id l.target.id with _ | _
    · have hnk : generateKey p.2.obsidianLink.target.id p.2.obsidianLink.source.id ≠
          generateKey l.source.id l.target.id := by
        simpa using hmk
      rw [mapHas_mapDelete]
      have hp0 := mem_mapDelete.1 hp
      rw [hmt p hp0.1 hne]
      simp [hnk]
    · have hpk : p.1 = generateKey l.target.id l.source.id :=
        hmirror_rev p hp (by simpa using hmk)
      exfalso
      have := mapHas_of_mem hp
      rw [hpk, mapHas_eq_isSome, hget] at this
      exact absurd this (by simp)
  · dsimp only
    have hrlmem := mapGet_mem hget
    by_cases hps : rl.pairStatus ≠ LinkPair.None
    · rw [if_pos hps]
      refine ⟨keysNodup_mapSet _ _ hnd1, ?_, ?_, ?_⟩
      · intro p hp
        rcases mem_mapSet hp with rfl | ⟨hp1, hprev⟩
        · exact hkc1 (generateKey l.target.id l.source.id, rl) hrlmem
        · exact hkc1 p hp1
      · intro p hp
        rcases mem_mapSet hp with rfl | ⟨hp1, hprev⟩
        · exact hdf1 (generateKey l.target.id l.source.id, rl) hrlmem
        · exact hdf1 p hp1
      · intro p hp hne
        rcases mem_mapSet hp with rfl | ⟨hp1, hprev⟩
        · exact absurd rfl hne
        · rw [mapHas_mapSet]
          rcases hmk : generateKey p.2.obsidianLink.target.id p.2.obsidianLink.source.id ==
              generateKey l.source.id l.target.id with _ | _
          · have hnk : generateKey p.2.obsidianLink.target.id p.2.obsidianLink.source.id ≠
                generateKey l.source.id l.target.id := by
              simpa using hmk
            have hp0 := mem_mapDelete.1 hp1
            rw [mapHas_mapDelete, hmt p hp0.1 hne]
            simp [hnk]
          · exact absurd (hmirror_rev p hp1 (by simpa using hmk)) hprev
    · rw [if_neg hps]
      have hpsn : rl.pairStatus = LinkPair.None := by
        by_contra hcc
        exact hps hcc
      refine ⟨hnd1, hkc1, hdf1, ?_⟩
      intro p hp hne
      rcases hmk : generateKey p.2.obsidianLink.target.id p.2.obsidianLink.source.id ==
          generateKey l.source.id l.target.id with _ | _
      · have hnk : generateKey p.2.obsidianLink.target.id p.2.obsidianLink.source.id ≠
            generateKey l.source.id l.target.id := by
          simpa using hmk
        have hp0 := mem_mapDelete.1 hp
        rw [mapHas_mapDelete, hmt p hp0.1 hne]
        simp [hnk]
      · have hpk : p.1 = generateKey l.target.id l.source.id :=
          hmirror_rev p hp (by simpa using hmk)
        have huniq := mapGet_eq_of_mem hnd1 hp
        rw [hpk, hget] at huniq
        have hprl : rl = p.2 := Option.some.inj huniq
        rw [← hprl] at hne
        exact absurd hpsn hne


/-- `addLink` preserves the core invariant of the authoritative map when the
edge's node ids are dash-free. -/
theorem addLink_coreInv (resolve : Resolver) (r : Renderer) (st : LinkManagerState)
    (l : ObsLink) (tc tl : Bool)
    (hs : dashFree l.source.id = true) (ht : dashFree l.target.id = true)
    (hinv : coreInv st.linksMap) : coreInv (addLink resolve r st l tc tl).linksMap := by
  obtain ⟨tOpt, gOpt, hmap⟩ := addLink_linksMap_any resolve r st l tc tl
  rw [hmap]
  exact coreInv_addEffect st.linksMap l tOpt gOpt hs ht hinv

/-- `removeLink` preserves the core invariant of the authoritative map when
the edge's node ids are dash-free. -/
theorem removeLink_coreInv (r : Renderer) (st : LinkManagerState) (l : ObsLink)
    (hs : dashFree l.source.id = true) (ht : dashFree l.target.id = true)
    (hinv : coreInv st.linksMap) : coreInv (removeLink r st l).linksMap := by
  rw [removeLink_linksMap]
  exact coreInv_removeEffect st.linksMap l hs ht hinv

/-- A fold whose every step preserves the core invariant preserves it. -/
theorem foldl_preserves_coreInv (step : LinkManagerState → String → LinkManagerState)
    (hstep : ∀ s k, coreInv s.linksMap → coreInv (step s k).linksMap) :
    ∀ (ks : List String) (s : LinkManagerState), coreInv s.linksMap →
      coreInv ((ks.foldl step s)).linksMap := by
  intro ks
  induction ks with
  | nil => intro s h; exact h
  | cons k ks ih =>
    intro s h
    rw [List.foldl_cons]
    exact ih _ (hstep s k h)

/-- `removeLinks` preserves the core invariant. -/
theorem removeLinks_coreInv (r : Renderer) (st : LinkManagerState)
    (live : List ObsLink) (hinv : coreInv st.linksMap) :
    coreInv (removeLinks r st live).linksMap := by
  unfold removeLinks
  refine foldl_preserves_coreInv _ ?_ _ st hinv
  intro s k h
  dsimp only
  by_cases hc : (!((live.map
      (fun l => generateKey l.source.id l.target.id)).contains k)) = true
  · rw [if_pos hc]
    rcases hm : mapGet s.linksMap k with _ | link
    · exact h
    · exact removeLink_coreInv r s link.obsidianLink
        (h.2.2.1 (k, link) (mapGet_mem hm)).1
        (h.2.2.1 (k, link) (mapGet_mem hm)).2 h
  · rw [if_neg hc]
    exact h

/-- `destroyMap` preserves the core invariant. -/
theorem destroyMap_coreInv (r : Renderer) (st : LinkManagerState)
    (hinv : coreInv st.linksMap) : coreInv (destroyMap r st).linksMap := by
  unfold destroyMap
  refine foldl_preserves_coreInv _ ?_ _ st hinv
  intro s k h
  dsimp only
  rcases hm : mapGet s.linksMap k with _ | link
  · exact h
  · exact removeLink_coreInv r s link.obsidianLink
      (h.2.2.1 (k, link) (mapGet_mem hm)).1
      (h.2.2.1 (k, link) (mapGet_mem hm)).2 h

/-- Every reachable state's authoritative map satisfies the core invariant. -/
theorem reachable_coreInv (resolve : Resolver) (r : Renderer)
    (st : LinkManagerState) (h : Reachable resolve r st) : coreInv st.linksMap := by
  induction h with
  | init =>
    refine ⟨List.nodup_nil, ?_, ?_, ?_⟩ <;>
      (intro p hp; exact absurd hp (List.not_mem_nil p))
  | add st e tc tl hr hs ht ih => exact addLink_coreInv resolve r st e tc tl hs ht ih
  | remove st e hr hs ht ih => exact removeLink_coreInv r st e hs ht ih
  | reconcile st live hr ih => exact removeLinks_coreInv r st live ih
  | destroy st hr ih => exact destroyMap_coreInv r st ih


/-- C10 counterexample: with ids containing the separator, the claimed
invariant fails.  After addEdge c->"a-b" (key "c-a-b"), addEdge "a-b"->c
(key "a-b-c", which flips "c-a-b" to `First`), addEdge a->"b-c" (the same
key "a-b-c", overwriting the entry with `pairState = None`) and removeEdge
a->"b-c" (deleting key "a-b-c"), the surviving entry at "c-a-b" still has
`pairState = First` but its mirror identity key "a-b-c" is untracked. -/
theorem C10_counterexample_mirror_untracked :
    ((mapGet (removeLink r0 (addLink noResolver r0 (addLink noResolver r0
        (addLink noResolver r0 initialState (mkLink "c" "a-b") false false)
        (mkLink "a-b" "c") false false) (mkLink "a" "b-c") false false)
        (mkLink "a" "b-c")).linksMap "c-a-b").map GltLink.pairStatus =
      some LinkPair.First) ∧
    mapHas (removeLink r0 (addLink noResolver r0 (addLink noResolver r0
        (addLink noResolver r0 initialState (mkLink "c" "a-b") false false)
        (mkLink "a-b" "c") false false) (mkLink "a" "b-c") false false)
        (mkLink "a" "b-c")).linksMap (generateKey "a-b" "c") = false := by
  exact ⟨by decide, by decide⟩

/-- C10 (amended): in every state reachable by sequences of addEdge,
removeEdge, reconcile and destroyAll in which every edge handed to
addEdge/removeEdge has node ids free of the key-separator character '-',
any tracked Overlay Entry whose pairState is `First` or `Second` has its
mirror identity (swapped endpoints) also tracked in the authoritative
map. -/
theorem C10_reachable_mirror_tracked (resolve : Resolver) (r : Renderer)
    (st : LinkManagerState) (h : Reachable resolve r st) :
    mirrorTracked st.linksMap :=
  (reachable_coreInv resolve r st h).2.2.2

/-- C10 witness: the amended invariant at the concrete reachable state built
by addEdge a->b then addEdge b->a from the fresh state. -/
theorem C10_reachable_mirror_tracked_witness :
    mirrorTracked (addLink noResolver r0 (addLink noResolver r0 initialState
      (mkLink "a" "b") false false) (mkLink "b" "a") false false).linksMap :=
  C10_reachable_mirror_tracked noResolver r0 _
    (Reachable.add _ (mkLink "b" "a") false false
      (Reachable.add _ (mkLink "a" "b") false false Reachable.init
        (by decide) (by decide))
      (by decide) (by decide))


/-- The effect of `removeLink` on the tracked key set: exactly the link's
own key is dropped. -/
theorem removeLink_mapHas (r : Renderer) (st : LinkManagerState) (l : ObsLink)
    (x : String) :
    mapHas (removeLink r st l).linksMap x =
      (!(x == generateKey l.source.id l.target.id) && mapHas st.linksMap x) := by
  rw [removeLink_linksMap]
  dsimp only
  rcases hget : mapGet (mapDelete st.linksMap (generateKey l.source.id l.target.id))
      (generateKey l.target.id l.source.id) with _ | rl
  · rw [mapHas_mapDelete]
  · dsimp only
    by_cases hps : rl.pairStatus ≠ LinkPair.None
    · rw [if_pos hps, mapHas_mapSet]
      by_cases hx : x = generateKey l.target.id l.source.id
      · subst hx
        have h1 := congrArg Option.isSome hget
        rw [← mapHas_eq_isSome] at h1
        rw [mapHas_mapDelete] at h1
        simp [h1]
      · have hbx : (x == generateKey l.target.id l.source.id) = false := by simp [hx]
        rw [hbx, Bool.false_or, mapHas_mapDelete]
    · rw [if_neg hps, mapHas_mapDelete]

/-- The effect of `addLink` on the tracked key set: exactly the link's own
key is added. -/
theorem addLink_mapHas (resolve : Resolver) (r : Renderer) (st : LinkManagerState)
    (l : ObsLink) (tc tl : Bool) (x : String) :
    mapHas (addLink resolve r st l tc tl).linksMap x =
      (x == generateKey l.source.id l.target.id || mapHas st.linksMap x) := by
  obtain ⟨tOpt, gOpt, hmap⟩ := addLink_linksMap_any resolve r st l tc tl
  rw [hmap]
  dsimp only
  generalize (if (l.source.id != l.target.id) &&
      mapHas st.linksMap (generateKey l.target.id l.source.id) then
    LinkPair.Second
  else LinkPair.None) = ps0
  split
  · rw [mapHas_mapSet]
  · split
    · rename_i rl hget
      rw [mapHas_mapSet]
      by_cases hx : x = generateKey l.target.id l.source.id
      · subst hx
        have h1 := congrArg Option.isSome hget
        rw [← mapHas_eq_isSome] at h1
        rw [mapHas_mapSet] at h1
        simp [h1]
      · have hbx : (x == generateKey l.target.id l.source.id) = false := by simp [hx]
        rw [hbx, Bool.false_or, mapHas_mapSet]
    · rw [mapHas_mapSet]

/-- `removeLink` preserves key coherence. -/
theorem keyCoherent_removeLink (r : Renderer) (st : LinkManagerState) (l : ObsLink)
    (hkc : keyCoherent st.linksMap) : keyCoherent (removeLink r st l).linksMap := by
  rw [removeLink_linksMap]
  dsimp only
  rcases hget : mapGet (mapDelete st.linksMap (generateKey l.source.id l.target.id))
      (generateKey l.target.id l.source.id) with _ | rl
  · intro p hp
    exact hkc p (mem_mapDelete.1 hp).1
  · dsimp only
    by_cases hps : rl.pairStatus ≠ LinkPair.None
    · rw [if_pos hps]
      intro p hp
      rcases mem_mapSet hp with rfl | ⟨hp1, hprev⟩
      · exact hkc (generateKey l.target.id l.source.id, rl)
          (mem_mapDelete.1 (mapGet_mem hget)).1
      · exact hkc p (mem_mapDelete.1 hp1).1
    · rw [if_neg hps]
      intro p hp
      exact hkc p (mem_mapDelete.1 hp).1

theorem mem_keys_of_has {m : List (String × α)} {k : String}
    (h : mapHas m k = true) : k ∈ m.map Prod.fst := by
  rw [mapHas_eq_isSome] at h
  obtain ⟨v, hv⟩ := Option.isSome_iff_exists.1 h
  exact List.mem_map.2 ⟨(k, v), mapGet_mem hv, rfl⟩

/-- The reconciliation fold of `removeLinks`: starting from a key-coherent
state whose stale tracked keys are all in the visit list, the fold keeps
exactly the live tracked keys. -/
theorem removeLinks_mapHas_aux (r : Renderer) (lks : List String) :
    ∀ (ks : List String) (s : LinkManagerState),
      keyCoherent s.linksMap →
      (∀ x, mapHas s.linksMap x = true → lks.contains x = false → x ∈ ks) →
      ∀ x, mapHas ((ks.foldl (fun s key =>
          if !(lks.contains key) then
            match mapGet s.linksMap key with
            | some link => removeLink r s link.obsidianLink
            | none => s
          else s) s)).linksMap x = (mapHas s.linksMap x && lks.contains x) := by
  intro ks
  induction ks with
  | nil =>
    intro s hkc hcover x
    rw [List.foldl_nil]
    cases hl : lks.contains x with
    | true => simp [hl]
    | false =>
      cases hmx : mapHas s.linksMap x with
      | true => exact absurd (hcover x hmx hl) (List.not_mem_nil x)
      | false => simp
  | cons k ks ih =>
    intro s hkc hcover x
    rw [List.foldl_cons]
    by_cases hcond : (!(lks.contains k)) = true
    · rw [if_pos hcond]
      have hkl : lks.contains k = false := by simpa using hcond
      rcases hmk : mapGet s.linksMap k with _ | link
      · refine ih s hkc ?_ x
        intro y hy hyl
        rcases List.mem_cons.1 (hcover y hy hyl) with rfl | hm
        · rw [(mapGet_eq_none_iff _ _).1 hmk] at hy
          exact absurd hy (by simp)
        · exact hm
      · have hkeq : k = generateKey link.obsidianLink.source.id
            link.obsidianLink.target.id := hkc (k, link) (mapGet_mem hmk)
        have hrm : ∀ y, mapHas (removeLink r s link.obsidianLink).linksMap y =
            (!(y == k) && mapHas s.linksMap y) := by
          intro y
          rw [removeLink_mapHas, ← hkeq]
        rw [ih (removeLink r s link.obsidianLink)
          (keyCoherent_removeLink r s link.obsidianLink hkc) ?_ x, hrm]
        · by_cases hx : x = k
          · subst hx
            rw [hkl]
            simp
          · have hbx : (x == k) = false := by simp [hx]
            rw [hbx]
            simp
        · intro y hy hyl
          rw [hrm y, Bool.and_eq_true] at hy
          obtain ⟨hy1, hy2⟩ := hy
          rcases List.mem_cons.1 (hcover y hy2 hyl) with rfl | hm
          · exact absurd hy1 (by simp)
          · exact hm
    · rw [if_neg hcond]
      have hkl : lks.contains k = true := by
        cases h : lks.contains k with
        | true => rfl
        | false => exact absurd (by rw [h]; rfl) hcond
      refine ih s hkc ?_ x
      intro y hy hyl
      rcases List.mem_cons.1 (hcover y hy hyl) with rfl | hm
      · rw [hkl] at hyl
        exact absurd hyl (by simp)
      · exact hm


set_option maxHeartbeats 1000000 in
/-- After `removeLinks`, a key is tracked iff it was tracked and is live. -/
theorem removeLinks_mapHas (r : Renderer) (st : LinkManagerState)
    (live : List ObsLink) (hkc : keyCoherent st.linksMap) (x : String) :
    mapHas (removeLinks r st live).linksMap x =
      (mapHas st.linksMap x &&
        ((live.map (fun l => generateKey l.source.id l.target.id)).contains x)) := by
  unfold removeLinks
  dsimp only
  exact removeLinks_mapHas_aux r (live.map (fun l => generateKey l.source.id l.target.id))
    (st.linksMap.map Prod.fst) st hkc (fun y hy hyl => mem_keys_of_has hy) x

/-- A fold whose every step adds exactly the step edge's key to the tracked
key set accumulates the union. -/
theorem foldl_links_mapHas_union (step : LinkManagerState → ObsLink → LinkManagerState)
    (hstep : ∀ s e x, mapHas (step s e).linksMap x =
      (x == generateKey e.source.id e.target.id || mapHas s.linksMap x)) :
    ∀ (es : List ObsLink) (s : LinkManagerState) (x : String),
      mapHas ((es.foldl step s)).linksMap x =
        (mapHas s.linksMap x ||
          (es.map (fun l => generateKey l.source.id l.target.id)).contains x) := by
  intro es
  induction es with
  | nil =>
    intro s x
    rw [List.foldl_nil, List.map_nil]
    cases hmx : mapHas s.linksMap x <;> rfl
  | cons e es ih =>
    intro s x
    rw [List.foldl_cons, ih, hstep, List.map_cons, List.contains_cons]
    cases x == generateKey e.source.id e.target.id <;>
      cases mapHas s.linksMap x <;>
      cases (es.map (fun l => generateKey l.source.id l.target.id)).contains x <;> rfl

/-- One pass of the per-edge loop of `updateTick` adds exactly the edge's
key to the tracked key set. -/
theorem tickStep_mapHas (resolve : Resolver) (r : Renderer) (tc tl tn : Bool)
    (s : LinkManagerState) (e : ObsLink) (x : String) :
    mapHas ((if tc then
        updateLinkGraphics r (updateLinkText r
          (if !(mapHas s.linksMap (generateKey e.source.id e.target.id)) then
            addLink resolve r s e tc tl
          else s) e tn) e
      else
        updateLinkText r
          (if !(mapHas s.linksMap (generateKey e.source.id e.target.id)) then
            addLink resolve r s e tc tl
          else s) e tn)).linksMap x =
      (x == generateKey e.source.id e.target.id || mapHas s.linksMap x) := by
  have hcore : ∀ s2 : LinkManagerState, s2 =
      (if !(mapHas s.linksMap (generateKey e.source.id e.target.id)) then
        addLink resolve r s e tc tl
      else s) →
      mapHas s2.linksMap x =
        (x == generateKey e.source.id e.target.id || mapHas s.linksMap x) := by
    intro s2 hs2
    by_cases htr : mapHas s.linksMap (generateKey e.source.id e.target.id) = true
    · rw [if_neg (by rw [htr]; simp)] at hs2
      subst hs2
      by_cases hx : x = generateKey e.source.id e.target.id
      · subst hx
        rw [htr]
        simp
      · have hbx : (x == generateKey e.source.id e.target.id) = false := by simp [hx]
        rw [hbx, Bool.false_or]
    · rw [if_pos (by simp [Bool.not_eq_true] at htr; rw [htr]; rfl)] at hs2
      subst hs2
      rw [addLink_mapHas]
  cases tc with
  | true =>
    rw [if_pos rfl, updateLinkGraphics_mapHas, updateLinkText_mapHas]
    exact hcore _ rfl
  | false =>
    rw [if_neg (by simp), updateLinkText_mapHas]
    exact hcore _ rfl

/-- After one structural-sync tick, the tracked key set is exactly the
snapshot's identity set. -/
theorem updateTick_mapHas (resolve : Resolver) (r : Renderer) (tc tl tn : Bool)
    (st : LinkManagerState) (live : List ObsLink)
    (hkc : keyCoherent st.linksMap) (x : String) :
    mapHas (updateTick resolve r tc tl tn st live).linksMap x =
      ((live.map (fun l => generateKey l.source.id l.target.id)).contains x) := by
  unfold updateTick
  dsimp only
  rw [foldl_links_mapHas_union _ (tickStep_mapHas resolve r tc tl tn) live _ x]
  rw [removeLinks_mapHas r st live hkc x]
  cases hc : (live.map (fun l => generateKey l.source.id l.target.id)).contains x <;>
    cases mapHas st.linksMap x <;> rfl


theorem stageMono_refl (st : LinkManagerState) : stageMono st st :=
  ⟨le_refl _, fun i hi => Or.inl hi⟩

theorem stageMono_trans {s1 s2 s3 : LinkManagerState}
    (h12 : stageMono s1 s2) (h23 : stageMono s2 s3) : stageMono s1 s3 := by
  refine ⟨le_trans h12.1 h23.1, ?_⟩
  intro i hi
  rcases h23.2 i hi with hi2 | hge
  · exact h12.2 i hi2
  · exact Or.inr (le_trans h12.1 hge)

theorem stale_mono {i : ℕ} {st st' : LinkManagerState}
    (h : stale i st) (hm : stageMono st st') : stale i st' := by
  obtain ⟨hlt, hns⟩ := h
  refine ⟨lt_of_lt_of_le hlt hm.1, ?_⟩
  intro hi
  rcases hm.2 i hi with hi2 | hge
  · exact hns hi2
  · omega

theorem entryIdsBelow_mono {e : GltLink} {n n2 : ℕ}
    (h : entryIdsBelow e n) (hn : n ≤ n2) : entryIdsBelow e n2 :=
  ⟨fun t ht => lt_of_lt_of_le (h.1 t ht) hn,
   fun g hg => lt_of_lt_of_le (h.2 g hg) hn⟩

/-- A state differing only by harmless fields keeps `tickInv` when its stage
is a duplicate-free subset and its map and counter are unchanged. -/
theorem tickInv_of_stage_subset {st st' : LinkManagerState} (h : tickInv st)
    (hnext : st'.nextElemId = st.nextElemId) (hmap : st'.linksMap = st.linksMap)
    (hnd : st'.stage.Nodup) (hsub : ∀ i ∈ st'.stage, i ∈ st.stage) :
    tickInv st' := by
  obtain ⟨h1, h2, h3, h4, h5⟩ := h
  refine ⟨hnd, ?_, ?_, ?_, ?_⟩
  · intro i hi
    rw [hnext]
    exact h2 i (hsub i hi)
  · rw [hmap, hnext]
    exact h3
  · rw [hmap]
    exact h4
  · rw [hmap]
    exact h5

theorem stageMono_updateLinkText (r : Renderer) (st : LinkManagerState)
    (l : ObsLink) (tn : Bool) : stageMono st (updateLinkText r st l tn) := by
  obtain ⟨-, -, -, hstage, hnext, -⟩ := updateLinkText_frame r st l tn
  rw [stageMono, hstage, hnext]
  exact stageMono_refl st

theorem stageMono_updateLinkGraphics (r : Renderer) (st : LinkManagerState)
    (l : ObsLink) : stageMono st (updateLinkGraphics r st l) := by
  obtain ⟨-, -, -, hstage, hnext, -⟩ := updateLinkGraphics_frame r st l
  rw [stageMono, hstage, hnext]
  exact stageMono_refl st

/-- The map effect of `updateLinkText`, identifying the replaced entry: the
stored text keeps its element id. -/
theorem updateLinkText_linksMap_cases2 (r : Renderer) (st : LinkManagerState)
    (l : ObsLink) (tn : Bool) :
    (updateLinkText r st l tn).linksMap = st.linksMap ∨
    ∃ e t t2, mapGet st.linksMap (generateKey l.source.id l.target.id) = some e ∧
      e.pixiText = some t ∧ t2.elemId = t.elemId ∧
      (updateLinkText r st l tn).linksMap =
        mapSet st.linksMap (generateKey l.source.id l.target.id)
          ({ e with pixiText := some t2 }) := by
  unfold updateLinkText
  dsimp only
  rcases hm : mapGet st.linksMap (generateKey l.source.id l.target.id) with _ | e
  · left; rfl
  · dsimp only
    rcases ht : e.pixiText with _ | t
    · left; rfl
    · dsimp only
      by_cases hs2 : st.stage.contains t.elemId = true
      · rw [if_pos hs2]
        right
        refine ⟨e, t, _, rfl, ht, ?_, rfl⟩
        rfl
      · rw [if_neg hs2]
        left
        rfl

/-- The map effect of `updateLinkGraphics`, identifying the replaced entry:
the stored graphics keeps its element id. -/
theorem updateLinkGraphics_linksMap_cases2 (r : Renderer) (st : LinkManagerState)
    (l : ObsLink) :
    (updateLinkGraphics r st l).linksMap = st.linksMap ∨
    ∃ e g g2, mapGet st.linksMap (generateKey l.source.id l.target.id) = some e ∧
      e.pixiGraphics = some g ∧ g2.elemId = g.elemId ∧
      (updateLinkGraphics r st l).linksMap =
        mapSet st.linksMap (generateKey l.source.id l.target.id)
          ({ e with pixiGraphics := some g2 }) := by
  unfold updateLinkGraphics
  dsimp only
  rcases hm : mapGet st.linksMap (generateKey l.source.id l.target.id) with _ | e
  · left; rfl
  · dsimp only
    rcases hg : e.pixiGraphics with _ | g
    · left; rfl
    · dsimp only
      by_cases hs2 : st.stage.contains g.elemId = true
      · rw [if_pos hs2]
        right
        refine ⟨e, g, _, rfl, hg, ?_, rfl⟩
        rfl
      · rw [if_neg hs2]
        left
        rfl

theorem tickInv_updateLinkText (r : Renderer) (st : LinkManagerState)
    (l : ObsLink) (tn : Bool) (h : tickInv st) : tickInv (updateLinkText r st l tn) := by
  obtain ⟨h1, h2, h3, h4, h5⟩ := h
  obtain ⟨-, -, -, hstage, hnext, -⟩ := updateLinkText_frame r st l tn
  rcases updateLinkText_linksMap_cases2 r st l tn with hmap |
    ⟨e, t, t2, hm, ht, hid, hmap⟩
  · refine ⟨hstage ▸ h1, ?_, ?_, ?_, ?_⟩
    · rw [hstage, hnext]; exact h2
    · rw [hmap, hnext]; exact h3
    · rw [hmap]; exact h4
    · rw [hmap]; exact h5
  · refine ⟨hstage ▸ h1, ?_, ?_, ?_, ?_⟩
    · rw [hstage, hnext]; exact h2
    · rw [hmap, hnext]
      intro p hp
      rcases mem_mapSet hp with rfl | ⟨hpm, h0⟩
      · have he3 := h3 _ (mapGet_mem hm)
        refine ⟨?_, he3.2⟩
        intro t0 ht0
        have ht2 : t2 = t0 := Option.some.inj ht0
        rw [← ht2, hid]
        exact he3.1 t ht
      · exact h3 p hpm
    · rw [hmap]
      intro p hp
      rcases mem_mapSet hp with rfl | ⟨hpm, h0⟩
      · exact h4 (generateKey l.source.id l.target.id, e) (mapGet_mem hm)
      · exact h4 p hpm
    · rw [hmap]
      exact keysNodup_mapSet _ _ h5


theorem tickInv_updateLinkGraphics (r : Renderer) (st : LinkManagerState)
    (l : ObsLink) (h : tickInv st) : tickInv (updateLinkGraphics r st l) := by
  obtain ⟨h1, h2, h3, h4, h5⟩ := h
  obtain ⟨-, -, -, hstage, hnext, -⟩ := updateLinkGraphics_frame r st l
  rcases updateLinkGraphics_linksMap_cases2 r st l with hmap |
    ⟨e, g, g2, hm, hg, hid, hmap⟩
  · refine ⟨hstage ▸ h1, ?_, ?_, ?_, ?_⟩
    · rw [hstage, hnext]; exact h2
    · rw [hmap, hnext]; exact h3
    · rw [hmap]; exact h4
    · rw [hmap]; exact h5
  · refine ⟨hstage ▸ h1, ?_, ?_, ?_, ?_⟩
    · rw [hstage, hnext]; exact h2
    · rw [hmap, hnext]
      intro p hp
      rcases mem_mapSet hp with rfl | ⟨hpm, h0⟩
      · have he3 := h3 _ (mapGet_mem hm)
        refine ⟨he3.1, ?_⟩
        intro g0 hg0
        have hg2 : g2 = g0 := Option.some.inj hg0
        rw [← hg2, hid]
        exact he3.2 g hg
      · exact h3 p hpm
    · rw [hmap]
      intro p hp
      rcases mem_mapSet hp with rfl | ⟨hpm, h0⟩
      · exact h4 (generateKey l.source.id l.target.id, e) (mapGet_mem hm)
      · exact h4 p hpm
    · rw [hmap]
      exact keysNodup_mapSet _ _ h5

theorem stageMono_acquireTagColor (st : LinkManagerState) (s0 : String) (tl : Bool) :
    stageMono st (acquireTagColor st s0 tl).2 := by
  by_cases hh : mapHas st.tagColors s0 = true
  · obtain ⟨g, hg⟩ := Option.isSome_iff_exists.1 hh
    rw [acquireTagColor_existing st s0 tl g hg]
    exact stageMono_refl st
  · rw [acquireTagColor_new st s0 tl (by simpa using hh)]
    refine ⟨by dsimp only; omega, ?_⟩
    intro i hi
    rcases List.mem_append.1 hi with hi | hi
    · exact Or.inl hi
    · right
      simp only [List.mem_cons, List.mem_singleton, List.not_mem_nil, or_false] at hi
      rcases hi with rfl | rfl
      · exact le_refl _
      · omega

theorem tickInv_acquireTagColor (st : LinkManagerState) (s0 : String) (tl : Bool)
    (h : tickInv st) : tickInv (acquireTagColor st s0 tl).2 := by
  obtain ⟨h1, h2, h3, h4, h5⟩ := h
  by_cases hh : mapHas st.tagColors s0 = true
  · obtain ⟨g, hg⟩ := Option.isSome_iff_exists.1 hh
    rw [acquireTagColor_existing st s0 tl g hg]
    exact ⟨h1, h2, h3, h4, h5⟩
  · rw [acquireTagColor_new st s0 tl (by simpa using hh)]
    refine ⟨?_, ?_, ?_, h4, h5⟩
    · refine List.Nodup.append h1 (by simp) ?_
      intro a ha hb
      have := h2 a ha
      simp only [List.mem_cons, List.mem_singleton, List.not_mem_nil, or_false] at hb
      rcases hb with rfl | rfl <;> omega
    · intro i hi
      rcases List.mem_append.1 hi with hi | hi
      · have := h2 i hi
        dsimp only
        omega
      · simp only [List.mem_cons, List.mem_singleton, List.not_mem_nil, or_false] at hi
        dsimp only
        rcases hi with rfl | rfl <;> omega
    · intro p hp
      exact entryIdsBelow_mono (h3 p hp) (by dsimp only; omega)

theorem eraseIf_nodup {l : List ℕ} (hl : l.Nodup) (a : ℕ) :
    (if l.contains a then l.erase a else l).Nodup := by
  split
  · exact hl.erase a
  · exact hl

theorem eraseIf_subset {l : List ℕ} (a : ℕ) :
    ∀ i, i ∈ (if l.contains a then l.erase a else l) → i ∈ l := by
  intro i hi
  split at hi
  · exact List.mem_of_mem_erase hi
  · exact hi

theorem stageMono_releaseTagColor (st : LinkManagerState) (ck : String) :
    stageMono st (releaseTagColor st ck) := by
  by_cases hh : mapHas st.tagColors ck = true
  · obtain ⟨g, hg⟩ := Option.isSome_iff_exists.1 hh
    by_cases hn : g.nUsing - 1 < 1
    · rw [releaseTagColor_reclaim st ck g hg hn]
      refine ⟨le_refl _, ?_⟩
      intro i hi
      dsimp only at hi
      exact Or.inl (eraseIf_subset _ i (eraseIf_subset _ i hi))
    · rw [releaseTagColor_dec st ck g hg hn]
      exact stageMono_refl st
  · rw [releaseTagColor_absent st ck (by simpa using hh)]
    exact stageMono_refl st

theorem tickInv_releaseTagColor (st : LinkManagerState) (ck : String)
    (h : tickInv st) : tickInv (releaseTagColor st ck) := by
  obtain ⟨h1, h2, h3, h4, h5⟩ := h
  by_cases hh : mapHas st.tagColors ck = true
  · obtain ⟨g, hg⟩ := Option.isSome_iff_exists.1 hh
    by_cases hn : g.nUsing - 1 < 1
    · rw [releaseTagColor_reclaim st ck g hg hn]
      refine tickInv_of_stage_subset ⟨h1, h2, h3, h4, h5⟩ rfl rfl ?_ ?_
      · dsimp only
        exact eraseIf_nodup (eraseIf_nodup h1 _) _
      · intro i hi
        dsimp only at hi
        exact eraseIf_subset _ i (eraseIf_subset _ i hi)
    · rw [releaseTagColor_dec st ck g hg hn]
      exact ⟨h1, h2, h3, h4, h5⟩
  · rw [releaseTagColor_absent st ck (by simpa using hh)]
    exact ⟨h1, h2, h3, h4, h5⟩


theorem stageMono_initializeLinkText (resolve : Resolver) (r : Renderer)
    (st : LinkManagerState) (l : ObsLink) (ps : LinkPair) :
    stageMono st (initializeLinkText resolve r st l ps).2 := by
  rcases hres : resolve l.source.id l.target.id with _ | s0
  · rw [initializeLinkText_none resolve r st l ps hres]
    exact stageMono_refl st
  · rw [initializeLinkText_some resolve r st l ps s0 hres]
    dsimp only
    obtain ⟨-, -, -, hstage, hnext, -⟩ :=
      updateLinkText_frame r ({ st with nextElemId := st.nextElemId + 1 }) l false
    have hnext2 : (updateLinkText r ({ st with nextElemId := st.nextElemId + 1 })
        l false).nextElemId = st.nextElemId + 1 := hnext
    have hstage2 : (updateLinkText r ({ st with nextElemId := st.nextElemId + 1 })
        l false).stage = st.stage := hstage
    refine ⟨?_, ?_⟩
    · show st.nextElemId ≤ (updateLinkText r _ l false).nextElemId
      rw [hnext2]
      omega
    · intro i hi
      rcases List.mem_append.1 hi with hi | hi
      · rw [hstage2] at hi
        exact Or.inl hi
      · simp only [List.mem_singleton] at hi
        subst hi
        exact Or.inr (le_refl _)

theorem tickInv_initializeLinkText (resolve : Resolver) (r : Renderer)
    (st : LinkManagerState) (l : ObsLink) (ps : LinkPair) (h : tickInv st) :
    tickInv (initializeLinkText resolve r st l ps).2 := by
  obtain ⟨h1, h2, h3, h4, h5⟩ := h
  rcases hres : resolve l.source.id l.target.id with _ | s0
  · rw [initializeLinkText_none resolve r st l ps hres]
    exact ⟨h1, h2, h3, h4, h5⟩
  · rw [initializeLinkText_some resolve r st l ps s0 hres]
    dsimp only
    have hmid : tickInv { st with nextElemId := st.nextElemId + 1 } := by
      refine ⟨h1, ?_, ?_, h4, h5⟩
      · intro i hi
        have := h2 i hi
        dsimp only
        omega
      · intro p hp
        exact entryIdsBelow_mono (h3 p hp) (by dsimp only; omega)
    obtain ⟨g1, g2, g3, g4, g5⟩ := tickInv_updateLinkText r _ l false hmid
    obtain ⟨-, -, -, hstage, hnext, -⟩ :=
      updateLinkText_frame r ({ st with nextElemId := st.nextElemId + 1 }) l false
    have hnext2 : (updateLinkText r ({ st with nextElemId := st.nextElemId + 1 })
        l false).nextElemId = st.nextElemId + 1 := hnext
    have hstage2 : (updateLinkText r ({ st with nextElemId := st.nextElemId + 1 })
        l false).stage = st.stage := hstage
    refine ⟨?_, ?_, g3, g4, g5⟩
    · refine List.Nodup.append g1 (List.nodup_singleton _) ?_
      intro a ha hb
      simp only [List.mem_singleton] at hb
      subst hb
      rw [hstage2] at ha
      have := h2 st.nextElemId ha
      omega
    · intro i hi
      show i < (updateLinkText r _ l false).nextElemId
      rcases List.mem_append.1 hi with hi | hi
      · exact g2 i hi
      · simp only [List.mem_singleton] at hi
        subst hi
        rw [hnext2]
        omega

theorem initializeLinkText_elemId (resolve : Resolver) (r : Renderer)
    (st : LinkManagerState) (l : ObsLink) (ps : LinkPair) :
    ∀ tx, (initializeLinkText resolve r st l ps).1 = some tx →
      tx.elemId < (initializeLinkText resolve r st l ps).2.nextElemId := by
  rcases hres : resolve l.source.id l.target.id with _ | s0
  · rw [initializeLinkText_none resolve r st l ps hres]
    intro tx h
    exact absurd h (by simp)
  · rw [initializeLinkText_some resolve r st l ps s0 hres]
    dsimp only
    intro tx h
    obtain ⟨-, -, -, -, hnext, -⟩ :=
      updateLinkText_frame r ({ st with nextElemId := st.nextElemId + 1 }) l false
    have hnext2 : (updateLinkText r ({ st with nextElemId := st.nextElemId + 1 })
        l false).nextElemId = st.nextElemId + 1 := hnext
    rw [← Option.some.inj h]
    show st.nextElemId < (updateLinkText r _ l false).nextElemId
    rw [hnext2]
    omega


theorem stageMono_attachFresh (s : LinkManagerState) :
    stageMono s { s with nextElemId := s.nextElemId + 1,
                         stage := s.stage ++ [s.nextElemId] } := by
  refine ⟨by dsimp only; omega, ?_⟩
  intro i hi
  rcases List.mem_append.1 hi with hi | hi
  · exact Or.inl hi
  · simp only [List.mem_singleton] at hi
    subst hi
    exact Or.inr (le_refl _)

theorem tickInv_attachFresh (s : LinkManagerState) (h : tickInv s) :
    tickInv { s with nextElemId := s.nextElemId + 1,
                     stage := s.stage ++ [s.nextElemId] } := by
  obtain ⟨h1, h2, h3, h4, h5⟩ := h
  refine ⟨?_, ?_, ?_, h4, h5⟩
  · refine List.Nodup.append h1 (List.nodup_singleton _) ?_
    intro a ha hb
    simp only [List.mem_singleton] at hb
    subst hb
    have := h2 s.nextElemId ha
    omega
  · intro i hi
    dsimp only
    rcases List.mem_append.1 hi with hi | hi
    · have := h2 i hi
      omega
    · simp only [List.mem_singleton] at hi
      subst hi
      omega
  · intro p hp
    exact entryIdsBelow_mono (h3 p hp) (by dsimp only; omega)

theorem stageMono_initializeLinkGraphics (resolve : Resolver) (r : Renderer)
    (st : LinkManagerState) (l : ObsLink) (tl : Bool) :
    stageMono st (initializeLinkGraphics resolve r st l tl).2 := by
  rcases hres : resolve l.source.id l.target.id with _ | s0
  · rw [initializeLinkGraphics_none resolve r st l tl hres]
    exact stageMono_refl st
  · by_cases hself : l.source.id = l.target.id
    · rw [initializeLinkGraphics_self resolve r st l tl s0 hres hself]
      dsimp only
      exact stageMono_trans (stageMono_attachFresh st)
        (stageMono_updateLinkGraphics r _ l)
    · rw [initializeLinkGraphics_nonself resolve r st l tl s0 hres hself]
      dsimp only
      exact stageMono_trans (stageMono_acquireTagColor st s0 tl)
        (stageMono_trans (stageMono_attachFresh (acquireTagColor st s0 tl).2)
          (stageMono_updateLinkGraphics r _ l))

theorem tickInv_initializeLinkGraphics (resolve : Resolver) (r : Renderer)
    (st : LinkManagerState) (l : ObsLink) (tl : Bool) (h : tickInv st) :
    tickInv (initializeLinkGraphics resolve r st l tl).2 := by
  rcases hres : resolve l.source.id l.target.id with _ | s0
  · rw [initializeLinkGraphics_none resolve r st l tl hres]
    exact h
  · by_cases hself : l.source.id = l.target.id
    · rw [initializeLinkGraphics_self resolve r st l tl s0 hres hself]
      dsimp only
      exact tickInv_updateLinkGraphics r _ l (tickInv_attachFresh st h)
    · rw [initializeLinkGraphics_nonself resolve r st l tl s0 hres hself]
      dsimp only
      exact tickInv_updateLinkGraphics r _ l
        (tickInv_attachFresh (acquireTagColor st s0 tl).2
          (tickInv_acquireTagColor st s0 tl h))

theorem initializeLinkGraphics_elemId (resolve : Resolver) (r : Renderer)
    (st : LinkManagerState) (l : ObsLink) (tl : Bool) :
    ∀ gx, (initializeLinkGraphics resolve r st l tl).1 = some gx →
      gx.elemId < (initializeLinkGraphics resolve r st l tl).2.nextElemId := by
  rcases hres : resolve l.source.id l.target.id with _ | s0
  · rw [initializeLinkGraphics_none resolve r st l tl hres]
    intro gx h
    exact absurd h (by simp)
  · by_cases hself : l.source.id = l.target.id
    · rw [initializeLinkGraphics_self resolve r st l tl s0 hres hself]
      dsimp only
      intro gx h
      have hnext2 : (updateLinkGraphics r
          ({ st with
             nextElemId := st.nextElemId + 1
             stage := st.stage ++ [st.nextElemId] }) l).nextElemId =
          st.nextElemId + 1 :=
        (updateLinkGraphics_frame r _ l).2.2.2.2.1
      rw [← Option.some.inj h]
      show st.nextElemId < (updateLinkGraphics r _ l).nextElemId
      rw [hnext2]
      omega
    · rw [initializeLinkGraphics_nonself resolve r st l tl s0 hres hself]
      dsimp only
      intro gx h
      have hnext2 : (updateLinkGraphics r
          ({ (acquireTagColor st s0 tl).2 with
             nextElemId := (acquireTagColor st s0 tl).2.nextElemId + 1
             stage := (acquireTagColor st s0 tl).2.stage ++
               [(acquireTagColor st s0 tl).2.nextElemId] }) l).nextElemId =
          (acquireTagColor st s0 tl).2.nextElemId + 1 :=
        (updateLinkGraphics_frame r _ l).2.2.2.2.1
      rw [← Option.some.inj h]
      show (acquireTagColor st s0 tl).2.nextElemId < (updateLinkGraphics r _ l).nextElemId
      rw [hnext2]
      omega


/-- Storing an entry bounded by the fresh-id counter at its own key keeps
the tick invariant. -/
theorem tickInv_mapStore (s : LinkManagerState) (k : String) (nl : GltLink)
    (hkey : k = generateKey nl.obsidianLink.source.id nl.obsidianLink.target.id)
    (hbound : entryIdsBelow nl s.nextElemId) (h : tickInv s) :
    tickInv { s with linksMap := mapSet s.linksMap k nl } := by
  obtain ⟨h1, h2, h3, h4, h5⟩ := h
  refine ⟨h1, h2, ?_, ?_, ?_⟩
  · intro p hp
    rcases mem_mapSet hp with rfl | ⟨hpm, h0⟩
    · exact hbound
    · exact h3 p hpm
  · intro p hp
    rcases mem_mapSet hp with rfl | ⟨hpm, h0⟩
    · exact hkey
    · exact h4 p hpm
  · exact keysNodup_mapSet _ _ h5

/-- Flipping a tracked entry's pair status in place keeps the tick
invariant. -/
theorem tickInv_flipStore (s : LinkManagerState) (rev : String) (rl : GltLink)
    (hget : mapGet s.linksMap rev = some rl) (h : tickInv s) :
    tickInv { s with
      linksMap := mapSet s.linksMap rev ({ rl with pairStatus := LinkPair.First }) } := by
  obtain ⟨h1, h2, h3, h4, h5⟩ := h
  refine ⟨h1, h2, ?_, ?_, ?_⟩
  · intro p hp
    rcases mem_mapSet hp with rfl | ⟨hpm, h0⟩
    · exact h3 (rev, rl) (mapGet_mem hget)
    · exact h3 p hpm
  · intro p hp
    rcases mem_mapSet hp with rfl | ⟨hpm, h0⟩
    · exact h4 (rev, rl) (mapGet_mem hget)
    · exact h4 p hpm
  · exact keysNodup_mapSet _ _ h5

theorem stageMono_addLink (resolve : Resolver) (r : Renderer)
    (st : LinkManagerState) (l : ObsLink) (tc tl : Bool) :
    stageMono st (addLink resolve r st l tc tl) := by
  unfold addLink
  dsimp only
  generalize (if (l.source.id != l.target.id) &&
      mapHas st.linksMap (generateKey l.target.id l.source.id) then
    LinkPair.Second
  else LinkPair.None) = ps0
  have hTm := stageMono_initializeLinkText resolve r st l ps0
  cases tc with
  | false =>
    simp only [Bool.false_eq_true, if_false]
    split
    · exact hTm
    · split
      · exact hTm
      · exact hTm
  | true =>
    simp only [if_true]
    have hGm := stageMono_trans hTm
      (stageMono_initializeLinkGraphics resolve r (initializeLinkText resolve r st l ps0).2 l tl)
    split
    · exact hGm
    · split
      · exact hGm
      · exact hGm

theorem tickInv_addLink (resolve : Resolver) (r : Renderer)
    (st : LinkManagerState) (l : ObsLink) (tc tl : Bool) (h : tickInv st) :
    tickInv (addLink resolve r st l tc tl) := by
  unfold addLink
  dsimp only
  generalize (if (l.source.id != l.target.id) &&
      mapHas st.linksMap (generateKey l.target.id l.source.id) then
    LinkPair.Second
  else LinkPair.None) = ps0
  have hT := tickInv_initializeLinkText resolve r st l ps0 h
  have hTid := initializeLinkText_elemId resolve r st l ps0
  cases tc with
  | false =>
    simp only [Bool.false_eq_true, if_false]
    have hstore : tickInv { (initializeLinkText resolve r st l ps0).2 with
        linksMap := mapSet (initializeLinkText resolve r st l ps0).2.linksMap
          (generateKey l.source.id l.target.id)
          { obsidianLink := l, pairStatus := ps0,
            pixiText := (initializeLinkText resolve r st l ps0).1,
            pixiGraphics := none } } := by
      refine tickInv_mapStore _ _ _ rfl ?_ hT
      refine ⟨?_, ?_⟩
      · intro t0 ht0
        exact hTid t0 ht0
      · intro g0 hg0
        exact absurd hg0 (by simp)
    split
    · exact hstore
    · split
      · rename_i rl hget
        exact tickInv_flipStore _ _ rl hget hstore
      · exact hstore
  | true =>
    simp only [if_true]
    have hG := tickInv_initializeLinkGraphics resolve r
      (initializeLinkText resolve r st l ps0).2 l tl hT
    have hGid := initializeLinkGraphics_elemId resolve r
      (initializeLinkText resolve r st l ps0).2 l tl
    have hGm := stageMono_initializeLinkGraphics resolve r
      (initializeLinkText resolve r st l ps0).2 l tl
    have hstore : tickInv { (initializeLinkGraphics resolve r
        (initializeLinkText resolve r st l ps0).2 l tl).2 with
        linksMap := mapSet (initializeLinkGraphics resolve r
            (initializeLinkText resolve r st l ps0).2 l tl).2.linksMap
          (generateKey l.source.id l.target.id)
          { obsidianLink := l, pairStatus := ps0,
            pixiText := (initializeLinkText resolve r st l ps0).1,
            pixiGraphics := (initializeLinkGraphics resolve r
              (initializeLinkText resolve r st l ps0).2 l tl).1 } } := by
      refine tickInv_mapStore _ _ _ rfl ?_ hG
      refine ⟨?_, ?_⟩
      · intro t0 ht0
        exact lt_of_lt_of_le (hTid t0 ht0) hGm.1
      · intro g0 hg0
        exact hGid g0 hg0
    split
    · exact hstore
    · split
      · rename_i rl hget
        exact tickInv_flipStore _ _ rl hget hstore
      · exact hstore


theorem eraseStep_stage_sub (s : LinkManagerState) (a : ℕ) :
    ∀ i, i ∈ (if s.stage.contains a then { s with stage := s.stage.erase a }
      else s).stage → i ∈ s.stage := by
  intro i hi
  split at hi
  · exact List.mem_of_mem_erase hi
  · exact hi

theorem eraseStep_stage_nodup (s : LinkManagerState) (a : ℕ) (h : s.stage.Nodup) :
    (if s.stage.contains a then { s with stage := s.stage.erase a }
      else s).stage.Nodup := by
  split
  · exact h.erase a
  · exact h

theorem removeLinkDetach_stage_sub (st : LinkManagerState) (gl : Option GltLink) :
    ∀ i, i ∈ (removeLinkDetach st gl).stage → i ∈ st.stage := by
  intro i hi
  unfold removeLinkDetach at hi
  rcases gl with _ | g
  · exact hi
  · dsimp only at hi
    rcases ht : g.pixiText with _ | t <;> rw [ht] at hi <;>
      rcases hg : g.pixiGraphics with _ | gr <;> rw [hg] at hi <;> dsimp only at hi
    · exact hi
    · exact eraseStep_stage_sub st gr.elemId i hi
    · exact eraseStep_stage_sub st t.elemId i hi
    · exact eraseStep_stage_sub st t.elemId i (eraseStep_stage_sub _ gr.elemId i hi)

theorem removeLinkDetach_stage_nodup (st : LinkManagerState) (gl : Option GltLink)
    (h : st.stage.Nodup) : (removeLinkDetach st gl).stage.Nodup := by
  unfold removeLinkDetach
  rcases gl with _ | g
  · exact h
  · dsimp only
    rcases ht : g.pixiText with _ | t <;>
      rcases hg : g.pixiGraphics with _ | gr <;> dsimp only
    · exact h
    · exact eraseStep_stage_nodup st gr.elemId h
    · exact eraseStep_stage_nodup st t.elemId h
    · exact eraseStep_stage_nodup _ gr.elemId (eraseStep_stage_nodup st t.elemId h)

theorem stageMono_removeLinkRelease (st : LinkManagerState) (gl : Option GltLink) :
    stageMono st (removeLinkRelease st gl) := by
  unfold removeLinkRelease
  dsimp only
  rcases gl with _ | g
  · exact stageMono_refl st
  · rw [Option.some_bind]
    rcases ht : g.pixiText with _ | t
    · exact stageMono_refl st
    · split
      · split
        · exact stageMono_releaseTagColor st _
        · exact stageMono_refl st
      · exact stageMono_refl st

theorem tickInv_removeLinkRelease (st : LinkManagerState) (gl : Option GltLink)
    (h : tickInv st) : tickInv (removeLinkRelease st gl) := by
  unfold removeLinkRelease
  dsimp only
  rcases gl with _ | g
  · exact h
  · rw [Option.some_bind]
    rcases ht : g.pixiText with _ | t
    · exact h
    · split
      · split
        · exact tickInv_releaseTagColor st _ h
        · exact h
      · exact h

theorem stageMono_removeLink (r : Renderer) (st : LinkManagerState) (l : ObsLink) :
    stageMono st (removeLink r st l) := by
  unfold removeLink
  dsimp only
  have h1 : stageMono st (removeLinkDetach st
      (mapGet st.linksMap (generateKey l.source.id l.target.id))) := by
    refine ⟨?_, ?_⟩
    · rw [(removeLinkDetach_frame _ _).2.2.2.2.1]
    · intro i hi
      exact Or.inl (removeLinkDetach_stage_sub _ _ i hi)
  have h2 := stageMono_trans h1 (stageMono_removeLinkRelease
    (removeLinkDetach st (mapGet st.linksMap (generateKey l.source.id l.target.id)))
    (mapGet st.linksMap (generateKey l.source.id l.target.id)))
  split
  · split
    · exact h2
    · exact h2
  · exact h2

/-- Resetting a tracked entry's pair status in place keeps the tick
invariant. -/
theorem tickInv_statusStore (s : LinkManagerState) (rev : String) (rl : GltLink)
    (ps2 : LinkPair) (hget : mapGet s.linksMap rev = some rl) (h : tickInv s) :
    tickInv { s with
      linksMap := mapSet s.linksMap rev ({ rl with pairStatus := ps2 }) } := by
  obtain ⟨h1, h2, h3, h4, h5⟩ := h
  refine ⟨h1, h2, ?_, ?_, ?_⟩
  · intro p hp
    rcases mem_mapSet hp with rfl | ⟨hpm, h0⟩
    · exact h3 (rev, rl) (mapGet_mem hget)
    · exact h3 p hpm
  · intro p hp
    rcases mem_mapSet hp with rfl | ⟨hpm, h0⟩
    · exact h4 (rev, rl) (mapGet_mem hget)
    · exact h4 p hpm
  · exact keysNodup_mapSet _ _ h5

theorem tickInv_removeLink (r : Renderer) (st : LinkManagerState) (l : ObsLink)
    (h : tickInv st) : tickInv (removeLink r st l) := by
  unfold removeLink
  dsimp only
  have hd : tickInv (removeLinkDetach st
      (mapGet st.linksMap (generateKey l.source.id l.target.id))) := by
    refine tickInv_of_stage_subset h ((removeLinkDetach_frame _ _).2.2.2.2.1)
      ((removeLinkDetach_frame _ _).1) (removeLinkDetach_stage_nodup _ _ h.1)
      (removeLinkDetach_stage_sub _ _)
  have hr := tickInv_removeLinkRelease
    (removeLinkDetach st (mapGet st.linksMap (generateKey l.source.id l.target.id)))
    (mapGet st.linksMap (generateKey l.source.id l.target.id)) hd
  have hdel : tickInv { (removeLinkRelease (removeLinkDetach st
      (mapGet st.linksMap (generateKey l.source.id l.target.id)))
      (mapGet st.linksMap (generateKey l.source.id l.target.id))) with
      linksMap := mapDelete (removeLinkRelease (removeLinkDetach st
        (mapGet st.linksMap (generateKey l.source.id l.target.id)))
        (mapGet st.linksMap (generateKey l.source.id l.target.id))).linksMap
        (generateKey l.source.id l.target.id) } := by
    obtain ⟨h1, h2, h3, h4, h5⟩ := hr
    refine ⟨h1, h2, ?_, ?_, keysNodup_mapDelete _ h5⟩
    · intro p hp
      exact h3 p (mem_mapDelete.1 hp).1
    · intro p hp
      exact h4 p (mem_mapDelete.1 hp).1
  split
  · rename_i rl hget
    split
    · exact tickInv_statusStore _ _ rl LinkPair.None hget hdel
    · exact hdel
  · exact hdel


theorem stageMono_foldl {β : Type} (step : LinkManagerState → β → LinkManagerState)
    (hstep : ∀ s b, stageMono s (step s b)) :
    ∀ (bs : List β) (s : LinkManagerState), stageMono s (bs.foldl step s) := by
  intro bs
  induction bs with
  | nil =>
    intro s
    exact stageMono_refl s
  | cons b bs ih =>
    intro s
    rw [List.foldl_cons]
    exact stageMono_trans (hstep s b) (ih (step s b))

theorem tickInv_foldl {β : Type} (step : LinkManagerState → β → LinkManagerState)
    (hstep : ∀ s b, tickInv s → tickInv (step s b)) :
    ∀ (bs : List β) (s : LinkManagerState), tickInv s → tickInv (bs.foldl step s) := by
  intro bs
  induction bs with
  | nil =>
    intro s h
    exact h
  | cons b bs ih =>
    intro s h
    rw [List.foldl_cons]
    exact ih (step s b) (hstep s b h)

theorem stageMono_removeLinksStep (r : Renderer) (lks : List String)
    (s : LinkManagerState) (k : String) :
    stageMono s (if !(lks.contains k) then
      match mapGet s.linksMap k with
      | some link => removeLink r s link.obsidianLink
      | none => s
    else s) := by
  split
  · split
    · exact stageMono_removeLink r s _
    · exact stageMono_refl s
  · exact stageMono_refl s

theorem tickInv_removeLinksStep (r : Renderer) (lks : List String)
    (s : LinkManagerState) (k : String) (h : tickInv s) :
    tickInv (if !(lks.contains k) then
      match mapGet s.linksMap k with
      | some link => removeLink r s link.obsidianLink
      | none => s
    else s) := by
  split
  · split
    · exact tickInv_removeLink r s _ h
    · exact h
  · exact h

theorem stageMono_removeLinks (r : Renderer) (st : LinkManagerState)
    (live : List ObsLink) : stageMono st (removeLinks r st live) := by
  unfold removeLinks
  dsimp only
  exact stageMono_foldl _
    (fun s k => stageMono_removeLinksStep r
      (live.map (fun l => generateKey l.source.id l.target.id)) s k)
    (st.linksMap.map Prod.fst) st

theorem tickInv_removeLinks (r : Renderer) (st : LinkManagerState)
    (live : List ObsLink) (h : tickInv st) : tickInv (removeLinks r st live) := by
  unfold removeLinks
  dsimp only
  exact tickInv_foldl _
    (fun s k => tickInv_removeLinksStep r
      (live.map (fun l => generateKey l.source.id l.target.id)) s k)
    (st.linksMap.map Prod.fst) st h

theorem stageMono_tickStep (resolve : Resolver) (r : Renderer) (tc tl tn : Bool)
    (s : LinkManagerState) (e : ObsLink) :
    stageMono s (if tc then
      updateLinkGraphics r (updateLinkText r
        (if !(mapHas s.linksMap (generateKey e.source.id e.target.id)) then
          addLink resolve r s e tc tl
        else s) e tn) e
    else
      updateLinkText r
        (if !(mapHas s.linksMap (generateKey e.source.id e.target.id)) then
          addLink resolve r s e tc tl
        else s) e tn) := by
  have hbase : stageMono s
      (if !(mapHas s.linksMap (generateKey e.source.id e.target.id)) then
        addLink resolve r s e tc tl
      else s) := by
    split
    · exact stageMono_addLink resolve r s e tc tl
    · exact stageMono_refl s
  split
  · exact stageMono_trans (stageMono_trans hbase (stageMono_updateLinkText r _ e tn))
      (stageMono_updateLinkGraphics r _ e)
  · exact stageMono_trans hbase (stageMono_updateLinkText r _ e tn)

theorem tickInv_tickStep (resolve : Resolver) (r : Renderer) (tc tl tn : Bool)
    (s : LinkManagerState) (e : ObsLink) (h : tickInv s) :
    tickInv (if tc then
      updateLinkGraphics r (updateLinkText r
        (if !(mapHas s.linksMap (generateKey e.source.id e.target.id)) then
          addLink resolve r s e tc tl
        else s) e tn) e
    else
      updateLinkText r
        (if !(mapHas s.linksMap (generateKey e.source.id e.target.id)) then
          addLink resolve r s e tc tl
        else s) e tn) := by
  have hbase : tickInv
      (if !(mapHas s.linksMap (generateKey e.source.id e.target.id)) then
        addLink resolve r s e tc tl
      else s) := by
    split
    · exact tickInv_addLink resolve r s e tc tl h
    · exact h
  split
  · exact tickInv_updateLinkGraphics r _ e (tickInv_updateLinkText r _ e tn hbase)
  · exact tickInv_updateLinkText r _ e tn hbase

theorem stageMono_updateTick (resolve : Resolver) (r : Renderer) (tc tl tn : Bool)
    (st : LinkManagerState) (live : List ObsLink) :
    stageMono st (updateTick resolve r tc tl tn st live) := by
  unfold updateTick
  dsimp only
  exact stageMono_trans (stageMono_removeLinks r st live)
    (stageMono_foldl _ (fun s e => stageMono_tickStep resolve r tc tl tn s e) live _)

theorem tickInv_updateTick (resolve : Resolver) (r : Renderer) (tc tl tn : Bool)
    (st : LinkManagerState) (live : List ObsLink) (h : tickInv st) :
    tickInv (updateTick resolve r tc tl tn st live) := by
  unfold updateTick
  dsimp only
  exact tickInv_foldl _ (fun s e => tickInv_tickStep resolve r tc tl tn s e) live _
    (tickInv_removeLinks r st live h)

theorem tickInv_initialState : tickInv initialState := by
  refine ⟨List.nodup_nil, ?_, ?_, ?_, List.nodup_nil⟩ <;>
    (intro p hp; exact absurd hp (List.not_mem_nil p))

theorem tickInv_runTicks (resolve : Resolver) (r : Renderer) (tc tl tn : Bool)
    (snaps : List (List ObsLink)) :
    tickInv (runTicks resolve r tc tl tn snaps) := by
  unfold runTicks
  refine tickInv_foldl _ ?_ snaps initialState tickInv_initialState
  intro s b h
  exact tickInv_updateTick resolve r tc tl tn s b h


theorem contains_true_of_mem {l : List ℕ} {a : ℕ} (h : a ∈ l) :
    l.contains a = true := by
  simp only [List.contains, List.elem_eq_mem, decide_eq_true_eq]
  exact h

theorem eraseStep_not_mem (s : LinkManagerState) (a : ℕ) (hnd : s.stage.Nodup) :
    a ∉ (if s.stage.contains a then { s with stage := s.stage.erase a }
      else s).stage := by
  split
  · intro hmem
    rw [List.Nodup.mem_erase_iff hnd] at hmem
    exact hmem.1 rfl
  · rename_i hc
    intro hmem
    exact hc (contains_true_of_mem hmem)

theorem eraseStep_preserve_not_mem (s : LinkManagerState) (a i : ℕ)
    (h : i ∉ s.stage) :
    i ∉ (if s.stage.contains a then { s with stage := s.stage.erase a }
      else s).stage := by
  intro hmem
  exact h (eraseStep_stage_sub s a i hmem)

/-- Detaching an entry removes its element ids from a duplicate-free display
list. -/
theorem removeLinkDetach_not_mem (st : LinkManagerState) (en : GltLink)
    (hnd : st.stage.Nodup) :
    (∀ t, en.pixiText = some t →
      t.elemId ∉ (removeLinkDetach st (some en)).stage) ∧
    (∀ g, en.pixiGraphics = some g →
      g.elemId ∉ (removeLinkDetach st (some en)).stage) := by
  unfold removeLinkDetach
  dsimp only
  rcases ht : en.pixiText with _ | t <;>
    rcases hg : en.pixiGraphics with _ | gr <;> dsimp only
  · exact ⟨fun t0 h0 => Option.noConfusion h0, fun g0 h0 => Option.noConfusion h0⟩
  · refine ⟨fun t0 h0 => Option.noConfusion h0, ?_⟩
    intro g0 h0
    cases Option.some.inj h0
    exact eraseStep_not_mem st gr.elemId hnd
  · refine ⟨?_, fun g0 h0 => Option.noConfusion h0⟩
    intro t0 h0
    cases Option.some.inj h0
    exact eraseStep_not_mem st t.elemId hnd
  · constructor
    · intro t0 h0
      cases Option.some.inj h0
      exact eraseStep_preserve_not_mem _ gr.elemId t.elemId
        (eraseStep_not_mem st t.elemId hnd)
    · intro g0 h0
      cases Option.some.inj h0
      exact eraseStep_not_mem _ gr.elemId (eraseStep_stage_nodup st t.elemId hnd)

/-- `removeLink` on a tracked entry makes the entry's element ids stale:
below the counter and detached. -/
theorem removeLink_stale (r : Renderer) (st : LinkManagerState) (en : GltLink)
    (hinv : tickInv st)
    (hget : mapGet st.linksMap (generateKey en.obsidianLink.source.id
      en.obsidianLink.target.id) = some en) :
    (∀ t, en.pixiText = some t →
      stale t.elemId (removeLink r st en.obsidianLink)) ∧
    (∀ g, en.pixiGraphics = some g →
      stale g.elemId (removeLink r st en.obsidianLink)) := by
  have hbound := hinv.2.2.1 _ (mapGet_mem hget)
  have hdet := removeLinkDetach_not_mem st en hinv.1
  have hdnext : (removeLinkDetach st (some en)).nextElemId = st.nextElemId :=
    (removeLinkDetach_frame _ _).2.2.2.2.1
  have hrel := stageMono_removeLinkRelease (removeLinkDetach st (some en)) (some en)
  have hstep : ∀ i, i < st.nextElemId → i ∉ (removeLinkDetach st (some en)).stage →
      stale i (removeLink r st en.obsidianLink) := by
    intro i hilt hidet
    have h1 : stale i (removeLinkDetach st (some en)) := by
      refine ⟨?_, hidet⟩
      rw [hdnext]
      exact hilt
    have h2 : stale i (removeLinkRelease (removeLinkDetach st (some en)) (some en)) :=
      stale_mono h1 hrel
    unfold removeLink
    dsimp only
    rw [hget]
    split
    · split
      · exact h2
      · exact h2
    · exact h2
  constructor
  · intro t ht
    exact hstep t.elemId (hbound.1 t ht) (hdet.1 t ht)
  · intro g hg
    exact hstep g.elemId (hbound.2 g hg) (hdet.2 g hg)

/-- `removeLink` for a different key keeps the entry at `k`, preserving its
overlay elements and edge. -/
theorem removeLink_preserves_entry (r : Renderer) (st : LinkManagerState)
    (e2 : ObsLink) (k : String) (en : GltLink)
    (hne : generateKey e2.source.id e2.target.id ≠ k)
    (hget : mapGet st.linksMap k = some en) :
    ∃ en2, mapGet (removeLink r st e2).linksMap k = some en2 ∧
      en2.pixiText = en.pixiText ∧ en2.pixiGraphics = en.pixiGraphics ∧
      en2.obsidianLink = en.obsidianLink := by
  rw [removeLink_linksMap]
  dsimp only
  have hd : mapGet (mapDelete st.linksMap
      (generateKey e2.source.id e2.target.id)) k = some en := by
    rw [mapGet_mapDelete, if_neg (fun hh => hne hh.symm)]
    exact hget
  rcases hrev : mapGet (mapDelete st.linksMap
      (generateKey e2.source.id e2.target.id))
      (generateKey e2.target.id e2.source.id) with _ | rl
  · exact ⟨en, hd, rfl, rfl, rfl⟩
  · dsimp only
    by_cases hps : rl.pairStatus ≠ LinkPair.None
    · rw [if_pos hps]
      by_cases hkrev : k = generateKey e2.target.id e2.source.id
      · subst hkrev
        rw [hrev] at hd
        have hrlen : rl = en := Option.some.inj hd
        subst hrlen
        refine ⟨{ rl with pairStatus := LinkPair.None }, ?_, rfl, rfl, rfl⟩
        rw [mapGet_mapSet_self]
      · refine ⟨en, ?_, rfl, rfl, rfl⟩
        rw [mapGet_mapSet, if_neg hkrev]
        exact hd
    · rw [if_neg hps]
      exact ⟨en, hd, rfl, rfl, rfl⟩


/-- Through the reconciliation fold, a tracked entry whose key is in the
visit list and not live ends up with its element ids stale. -/
theorem removeLinks_fold_stale (r : Renderer) (lks : List String) :
    ∀ (ks : List String) (s : LinkManagerState) (k : String) (en : GltLink),
      tickInv s → k ∈ ks → lks.contains k = false →
      mapGet s.linksMap k = some en →
      ∀ i, ((∃ t, en.pixiText = some t ∧ i = t.elemId) ∨
            (∃ g, en.pixiGraphics = some g ∧ i = g.elemId)) →
      stale i (ks.foldl (fun s key =>
        if !(lks.contains key) then
          match mapGet s.linksMap key with
          | some link => removeLink r s link.obsidianLink
          | none => s
        else s) s) := by
  intro ks
  induction ks with
  | nil =>
    intro s k en hinv hk
    exact absurd hk (List.not_mem_nil k)
  | cons k2 ks ih =>
    intro s k en hinv hk hkl hget i hi
    rw [List.foldl_cons]
    by_cases hkk : k2 = k
    · subst hkk
      have hstep : (if !(lks.contains k2) then
          match mapGet s.linksMap k2 with
          | some link => removeLink r s link.obsidianLink
          | none => s
        else s) = removeLink r s en.obsidianLink := by
        rw [hget, hkl]
        rfl
      rw [hstep]
      have hkc : k2 = generateKey en.obsidianLink.source.id
          en.obsidianLink.target.id := hinv.2.2.2.1 (k2, en) (mapGet_mem hget)
      have hget2 : mapGet s.linksMap (generateKey en.obsidianLink.source.id
          en.obsidianLink.target.id) = some en := by
        rw [← hkc]
        exact hget
      have hstale0 := removeLink_stale r s en hinv hget2
      have hstale : stale i (removeLink r s en.obsidianLink) := by
        rcases hi with ⟨t, ht, rfl⟩ | ⟨g, hg, rfl⟩
        · exact hstale0.1 t ht
        · exact hstale0.2 g hg
      exact stale_mono hstale (stageMono_foldl _
        (fun s2 kx => stageMono_removeLinksStep r lks s2 kx) ks _)
    · have hkmem : k ∈ ks := by
        rcases List.mem_cons.1 hk with h | h
        · exact absurd h.symm hkk
        · exact h
      by_cases hcond : (!(lks.contains k2)) = true
      · rw [if_pos hcond]
        rcases hm2 : mapGet s.linksMap k2 with _ | link2
        · exact ih s k en hinv hkmem hkl hget i hi
        · have hkeq : k2 = generateKey link2.obsidianLink.source.id
              link2.obsidianLink.target.id := hinv.2.2.2.1 (k2, link2) (mapGet_mem hm2)
          obtain ⟨en2, hg2, hpt, hpg, hobs⟩ := removeLink_preserves_entry r s
            link2.obsidianLink k en (by rw [← hkeq]; exact fun hh => hkk hh) hget
          refine ih _ k en2 (tickInv_removeLink r s _ hinv) hkmem hkl hg2 i ?_
          rcases hi with ⟨t, ht, rfl⟩ | ⟨g, hg, rfl⟩
          · exact Or.inl ⟨t, by rw [hpt]; exact ht, rfl⟩
          · exact Or.inr ⟨g, by rw [hpg]; exact hg, rfl⟩
      · rw [if_neg hcond]
        exact ih s k en hinv hkmem hkl hget i hi

/-- After `removeLinks`, a previously tracked non-live entry's element ids
are stale. -/
theorem removeLinks_stale (r : Renderer) (st : LinkManagerState)
    (live : List ObsLink) (hinv : tickInv st) (k : String) (en : GltLink)
    (hget : mapGet st.linksMap k = some en)
    (hkl : (live.map (fun l => generateKey l.source.id l.target.id)).contains k =
      false)
    (i : ℕ)
    (hi : (∃ t, en.pixiText = some t ∧ i = t.elemId) ∨
          (∃ g, en.pixiGraphics = some g ∧ i = g.elemId)) :
    stale i (removeLinks r st live) := by
  unfold removeLinks
  dsimp only
  refine removeLinks_fold_stale r _ _ st k en hinv ?_ hkl hget i hi
  exact mem_keys_of_has (by rw [mapHas_eq_isSome, hget]; rfl)


/-- C5 counterexample: the reconcile pass alone does not make the tracked
key set equal to the snapshot's identity set — it only removes, so a new
live edge is still omitted right after `removeLinks` returns.  From the
fresh state, reconcile with the one-edge snapshot [a -> b] leaves the
identity "a-b" (which is in the snapshot's identity set) untracked. -/
theorem C5_counterexample_reconcile_alone_omits :
    (generateKey "a" "b") ∈
      ([mkLink "a" "b"].map (fun l => generateKey l.source.id l.target.id)) ∧
    mapHas (removeLinks r0 initialState [mkLink "a" "b"]).linksMap
      (generateKey "a" "b") = false := by
  exact ⟨by decide, by decide⟩

/-- C5 (amended): for any sequence of live-edge-set snapshots processed by
the update loop's structural-sync tick, after the tick for the latest
snapshot the authoritative map's key set is exactly the snapshot's identity
set (no extras, no omissions), and every entry that was tracked before the
tick whose identity is not in the snapshot has its overlay elements no
longer attached to the renderer's display list. -/
theorem C5_structural_sync_completeness (resolve : Resolver) (r : Renderer)
    (tc tl tn : Bool) (snaps : List (List ObsLink)) (live : List ObsLink) :
    (∀ k, mapHas (runTicks resolve r tc tl tn (snaps ++ [live])).linksMap k = true ↔
      k ∈ live.map (fun l => generateKey l.source.id l.target.id)) ∧
    (∀ p ∈ (runTicks resolve r tc tl tn snaps).linksMap,
      (live.map (fun l => generateKey l.source.id l.target.id)).contains p.1 =
        false →
      (∀ t, p.2.pixiText = some t →
        t.elemId ∉ (runTicks resolve r tc tl tn (snaps ++ [live])).stage) ∧
      (∀ g, p.2.pixiGraphics = some g →
        g.elemId ∉ (runTicks resolve r tc tl tn (snaps ++ [live])).stage)) := by
  have hrun : runTicks resolve r tc tl tn (snaps ++ [live]) =
      updateTick resolve r tc tl tn (runTicks resolve r tc tl tn snaps) live := by
    unfold runTicks
    rw [List.foldl_append, List.foldl_cons, List.foldl_nil]
  have hinv := tickInv_runTicks resolve r tc tl tn snaps
  constructor
  · intro k
    rw [hrun, updateTick_mapHas resolve r tc tl tn _ live hinv.2.2.2.1 k]
    constructor
    · intro h
      simpa using h
    · intro h
      simpa using h
  · intro p hp hpl
    have hget : mapGet (runTicks resolve r tc tl tn snaps).linksMap p.1 = some p.2 :=
      mapGet_eq_of_mem hinv.2.2.2.2 hp
    have hstale : ∀ i, ((∃ t, p.2.pixiText = some t ∧ i = t.elemId) ∨
        (∃ g, p.2.pixiGraphics = some g ∧ i = g.elemId)) →
        stale i (updateTick resolve r tc tl tn
          (runTicks resolve r tc tl tn snaps) live) := by
      intro i hi
      unfold updateTick
      dsimp only
      have h1 := removeLinks_stale r _ live hinv p.1 p.2 hget hpl i hi
      exact stale_mono h1 (stageMono_foldl _
        (fun s e => stageMono_tickStep resolve r tc tl tn s e) live _)
    constructor
    · intro t ht
      have hs := hstale t.elemId (Or.inl ⟨t, ht, rfl⟩)
      rw [hrun]
      exact hs.2
    · intro g hg
      have hs := hstale g.elemId (Or.inr ⟨g, hg, rfl⟩)
      rw [hrun]
      exact hs.2
